import Mathlib

/-!
Verification of the mst-rs library (src/lib.rs): point generation and the
dense Prim minimum-spanning-tree construction.

Modelling conventions:
- Rust i32 coordinates are modelled as Int.  The coordinate arithmetic in
  scope (differences and sums of squares) is modelled exactly.
- The source computes Euclidean distances as f32 square roots and uses them
  only in order comparisons against other such distances (or against
  f32::INFINITY) and in stored lengths.  Since the real square root is
  strictly monotone on nonnegative reals, all comparisons are modelled
  exactly by comparing squared distances in WithTop Int, where the top
  element models f32::INFINITY (the FMARK sentinel).  Theorem statements
  about Euclidean lengths reintroduce Real.sqrt on top of the squared
  values.
- The usize sentinel UMARK (usize::MAX) for the nearest-vertex marker is
  modelled as the value none of Option Nat; a valid index i is some i.
- A Rust assertion failure or out-of-bounds index (a process abort) is
  modelled as the crash outcome of RunResult; returning Err(e) is the err
  outcome; Ok(v) is the ok outcome.  Where a failing index access occurs
  inside a helper, the helper returns an Option, with none meaning abort.
- The unbounded rejection-sampling loop of generate and the while loop of
  minimum_spanning_tree are modelled with explicit fuel; the fuel-out case
  of the MST loop is proved unreachable for the fuel supplied, and for
  generate the fuel-out case is kept distinct from abort outcomes.
- The random number generator of generate is modelled as an explicit
  stream of draws (a function from Nat); the in-range guarantee of
  gen_range becomes a hypothesis on the stream.
-/

namespace MstRs

/-- Outcome of running a Rust function that may return a Result or abort
the process: ok models Ok, err models Err, crash models an assertion
failure or any other process abort. -/
inductive RunResult (ε α : Type) where
  | ok (val : α) : RunResult ε α
  | err (e : ε) : RunResult ε α
  | crash : RunResult ε α
deriving DecidableEq

/-- The single error type of src/error.rs (struct Error, no fields). -/
inductive Error where
  | mk : Error
deriving DecidableEq

/-- A 2D vertex (struct Vertex, fields x and y of type i32). -/
structure Vertex where
  x : Int
  y : Int
deriving DecidableEq

/-- Vertex::new. -/
def Vertex.new (x y : Int) : Vertex := ⟨x, y⟩

/-- Squared Euclidean distance between two vertices.  The source method
Vertex::distance returns the f32 square root of exactly this integer; all
its uses are order comparisons, modelled on the squares (see the header
comment). -/
def Vertex.dist2 (u v : Vertex) : Int :=
  (u.x - v.x) * (u.x - v.x) + (u.y - v.y) * (u.y - v.y)

/-- Euclidean distance between two vertices, as a real number.  Used only
in theorem statements, never by the executable model. -/
noncomputable def Vertex.distance (u v : Vertex) : ℝ :=
  Real.sqrt ((Vertex.dist2 u v : ℤ) : ℝ)

/-- FMARK (f32::INFINITY), the table marker for an unknown cost, in the
squared-distance model. -/
def FMARK : WithTop Int := ⊤

/-- A graph edge (struct Edge): two vertices plus the cached length.  The
length field holds the squared distance in the model (the source caches
the f32 square root of it, a function of this value). -/
structure Edge where
  u : Vertex
  v : Vertex
  length : WithTop Int
deriving DecidableEq

/-- Edge::new.  The source asserts x0 != x1 and y0 != y1 and aborts when
either fails; none models the aborting outcome. -/
def Edge.new (x0 y0 x1 y1 : Int) : Option Edge :=
  if x0 = x1 then none
  else if y0 = y1 then none
  else
    let u := Vertex.new x0 y0
    let v := Vertex.new x1 y1
    some { u := u, v := v, length := ((Vertex.dist2 u v : Int) : WithTop Int) }

/-- Edge::from_vertices, with the same pair of assertions as Edge::new. -/
def Edge.from_vertices (u v : Vertex) : Option Edge :=
  if u.x = v.x then none
  else if u.y = v.y then none
  else some { u := u, v := v, length := ((Vertex.dist2 u v : Int) : WithTop Int) }

/-- Edge::len, returning the cached length. -/
def Edge.len (e : Edge) : WithTop Int := e.length

/-- Vertex table item (struct Item): position index, marker for the
nearest tree vertex, cost to it, and the vertex itself. -/
structure Item where
  index : Nat
  near : Option Nat
  cost : WithTop Int
  vertex : Vertex
deriving DecidableEq

/-- Item::new: not yet in the tree (UMARK marker, FMARK cost). -/
def Item.new (index : Nat) (vertex : Vertex) : Item :=
  { index := index, near := none, cost := FMARK, vertex := vertex }

/-- The table-initialization loop of minimum_spanning_tree:
push Item::new(table_index, p) for each point, incrementing table_index. -/
def initTable : Nat → List Vertex → List Item
  | _, [] => []
  | k, p :: rest => Item.new k p :: initTable (k + 1) rest

/-- The index-verification loop of minimum_spanning_tree:
assert_eq!(i, vertex_table[i].index) for every i. -/
def checkIndices (table : List Item) : Bool :=
  (List.range table.length).all fun i =>
    decide ((table.get? i).map Item.index = some i)

/-- Seeding the tree: vertex_table[0].near = 0 and vertex_table[0].cost =
0.0.  On an empty table the index access aborts, modelled as none. -/
def seed (table : List Item) : Option (List Item) :=
  match table with
  | [] => none
  | it :: rest => some ({ it with near := some 0, cost := (0 : WithTop Int) } :: rest)

/-- Accumulator of the selection scan: the local variables tree_index,
index (both UMARK at the start of each outer iteration) and cost (FMARK at
the start). -/
structure Cand where
  tree_index : Option Nat
  index : Option Nat
  cost : WithTop Int
deriving DecidableEq

/-- The initial accumulator of one selection scan. -/
def initCand : Cand := { tree_index := none, index := none, cost := FMARK }

/-- Body of the inner scan loop for a fixed tree vertex t: when the
visited item i is not in the tree and its distance to t improves on the
current cost, record the pair. -/
def scanBody (t : Item) (c : Cand) (i : Item) : Cand :=
  if i.near = none then
    let length : WithTop Int := ((Vertex.dist2 t.vertex i.vertex : Int) : WithTop Int)
    if length < c.cost then
      { tree_index := some t.index, index := some i.index, cost := length }
    else c
  else c

/-- The inner loop of the selection scan: visit every item of the table
with the body above. -/
def scanInner (t : Item) (table : List Item) (c0 : Cand) : Cand :=
  table.foldl (scanBody t) c0

/-- Body of the outer scan loop: skip vertices not in the tree, otherwise
run the inner loop over the whole table. -/
def scanStep (table : List Item) (c : Cand) (t : Item) : Cand :=
  if t.near = none then c else scanInner t table c

/-- The full selection scan of one while-loop iteration. -/
def scanPairs (table : List Item) : Cand :=
  table.foldl (scanStep table) initCand

/-- One while-loop iteration after the scan: vertex_table[index].cost =
cost and vertex_table[index].near = tree_index.  If index is still UMARK
(or out of bounds) the table access aborts, modelled as none. -/
def connect (table : List Item) : Option (List Item) :=
  let c := scanPairs table
  match c.index with
  | none => none
  | some idx =>
    if h : idx < table.length then
      some (table.set idx
        { table.get ⟨idx, h⟩ with cost := c.cost, near := c.tree_index })
    else none

/-- The function vertices_available: does any item still carry the UMARK
marker? -/
def vertices_available (vertices : List Item) : Bool :=
  vertices.any fun v => decide (v.near = none)

/-- The while loop of minimum_spanning_tree, with explicit fuel.  The
fuel-out case returns none; the supplied fuel is proved sufficient. -/
def mstLoop : Nat → List Item → Option (List Item)
  | 0, table => if vertices_available table then none else some table
  | fuel + 1, table =>
    if vertices_available table then
      match connect table with
      | none => none
      | some t => mstLoop fuel t
    else some table

/-- One step of the edge-building loop at position i: skip the root
(near == i), otherwise read the nearest vertex and emit the edge carrying
the stored cost as length.  The outer none models an aborting index
access; some none models the skip. -/
def edgeAt (table : List Item) (i : Nat) (it : Item) : Option (Option Edge) :=
  if it.near = some i then some none
  else
    match it.near with
    | none => none
    | some j =>
      match table.get? j with
      | none => none
      | some tj => some (some { u := it.vertex, v := tj.vertex, length := it.cost })

/-- The edge-building loop over a list of positions, in source order.  An
out-of-range position aborts (unreachable when the list enumerates the
table). -/
def buildEdgesList (table : List Item) : List Nat → Option (List Edge)
  | [] => some []
  | i :: rest =>
    match table.get? i with
    | none => none
    | some it =>
      match edgeAt table i it with
      | none => none
      | some none => buildEdgesList table rest
      | some (some e) => (buildEdgesList table rest).map (fun es => e :: es)

/-- The edge-building loop of minimum_spanning_tree (for i in 0..len). -/
def buildEdges (table : List Item) : Option (List Edge) :=
  buildEdgesList table (List.range table.length)

/-- The function minimum_spanning_tree.  All aborting paths (the seeding
index access on an empty table, an UMARK index after a failed scan, and
index checks) collapse to crash; the source otherwise returns Ok. -/
def minimum_spanning_tree (points : List Vertex) : RunResult Error (List Edge) :=
  let table := initTable 0 points
  if checkIndices table then
    match seed table with
    | none => RunResult.crash
    | some t0 =>
      match mstLoop points.length t0 with
      | none => RunResult.crash
      | some t1 =>
        match buildEdges t1 with
        | none => RunResult.crash
        | some edges => RunResult.ok edges
  else RunResult.crash

/-- Body of the minimum_distance loop: keep the smaller of the running
minimum and the distance from v to the visited point. -/
def minBody (v : Vertex) (min_d : WithTop Int) (p : Vertex) : WithTop Int :=
  let d : WithTop Int := ((Vertex.dist2 v p : Int) : WithTop Int)
  if d < min_d then d else min_d

/-- The function minimum_distance: fold the f32 minimum of the distances
from v to each accepted point, starting from FMARK, in the
squared-distance model. -/
def minimum_distance (v : Vertex) (points : List Vertex) : WithTop Int :=
  points.foldl (minBody v) FMARK

/-- Decides whether the Euclidean distance whose square is m is at least
the threshold q: for finite m this is q ≤ 0 or q ^ 2 ≤ m, and the top
element (FMARK) exceeds every threshold.  This decides the f32 comparison
minimum_distance(v, points) >= min_d exactly. -/
def sqrtGe (m : WithTop Int) (q : ℚ) : Bool :=
  decide (q ≤ 0) ||
    decide (((q ^ 2 : ℚ) : WithTop ℚ) ≤ WithTop.map (fun k : Int => (k : ℚ)) m)

/-- The rejection-sampling loop of generate, with explicit fuel: draw the
next candidate from the stream, accept it when its minimum distance to the
accepted points is at least min_d, and stop once n points are accepted.
The fuel-out case (none) models nontermination of the unbounded source
loop. -/
def generateLoop (n : Nat) (min_d : ℚ) (draws : Nat → Int × Int) :
    Nat → Nat → List Vertex → Option (List Vertex)
  | 0, _, _ => none
  | fuel + 1, k, points =>
    if points.length < n then
      let v := Vertex.new (draws k).1 (draws k).2
      if sqrtGe (minimum_distance v points) min_d then
        generateLoop n min_d draws fuel (k + 1) (points ++ [v])
      else
        generateLoop n min_d draws fuel (k + 1) points
    else some points

/-- The function generate.  The six assert! parameter checks abort on
failure (some crash); Int.tdiv models the truncating i32 division; the
accepted points are returned as Ok.  The outer none is the fuel-out case
of the sampling loop, kept distinct from every abort. -/
def generate (n : Int) (min_d : ℚ) (min_x min_y max_x max_y : Int)
    (draws : Nat → Int × Int) (fuel : Nat) :
    Option (RunResult Error (List Vertex)) :=
  if ¬ n > 0 then some RunResult.crash
  else if ¬ min_d > 1 then some RunResult.crash
  else if ¬ min_x < max_x then some RunResult.crash
  else if ¬ min_y < max_y then some RunResult.crash
  else if ¬ max_x - min_x > Int.tdiv (n * ⌈min_d⌉) 20 then some RunResult.crash
  else if ¬ max_y - min_y > Int.tdiv (n * ⌈min_d⌉) 20 then some RunResult.crash
  else (generateLoop n.toNat min_d draws fuel 0 []).map RunResult.ok

/-- Number of items still carrying the UMARK marker. -/
def availCount (table : List Item) : Nat :=
  table.countP fun it => decide (it.near = none)

/-- Iterating the loop body alone (without the loop guard): k successive
connect steps. -/
def steps : Nat → List Item → Option (List Item)
  | 0, t => some t
  | k + 1, t =>
    match connect t with
    | none => none
    | some t2 => steps k t2

/-- Squared distances are symmetric. -/
theorem dist2_comm (u v : Vertex) : Vertex.dist2 u v = Vertex.dist2 v u := by
  unfold Vertex.dist2; ring

/-- Squared distances are nonnegative. -/
theorem dist2_nonneg (u v : Vertex) : 0 ≤ Vertex.dist2 u v := by
  unfold Vertex.dist2
  have h1 : 0 ≤ (u.x - v.x) * (u.x - v.x) := mul_self_nonneg _
  have h2 : 0 ≤ (u.y - v.y) * (u.y - v.y) := mul_self_nonneg _
  omega

theorem initTable_length (k : Nat) (ps : List Vertex) :
    (initTable k ps).length = ps.length := by
  induction ps generalizing k with
  | nil => rfl
  | cons p rest ih => simp [initTable, ih]

theorem initTable_getElem (k : Nat) (ps : List Vertex) (i : Nat)
    (h : i < (initTable k ps).length) (h2 : i < ps.length) :
    (initTable k ps)[i] = Item.new (k + i) (ps.get ⟨i, h2⟩) := by
  induction ps generalizing k i with
  | nil => simp at h2
  | cons p rest ih =>
    cases i with
    | zero => simp [initTable]
    | succ m =>
      have hm : m < (initTable (k + 1) rest).length := by
        simpa [initTable, initTable_length] using h
      have hm2 : m < rest.length := by simpa using h2
      simpa [initTable, Nat.add_assoc, Nat.add_comm 1 m] using ih (k + 1) m hm hm2

theorem checkIndices_initTable (ps : List Vertex) :
    checkIndices (initTable 0 ps) = true := by
  unfold checkIndices
  rw [List.all_eq_true]
  intro i hi
  rw [List.mem_range] at hi
  rw [decide_eq_true_iff]
  rw [List.get?_eq_getElem? , List.getElem?_eq_getElem hi]
  simp [initTable_getElem 0 ps i hi (by simpa [initTable_length] using hi), Item.new]

theorem availCount_initTable (k : Nat) (ps : List Vertex) :
    availCount (initTable k ps) = ps.length := by
  induction ps generalizing k with
  | nil => rfl
  | cons p rest ih =>
    simp [initTable, availCount, List.countP_cons, Item.new] at ih ⊢
    exact ih (k + 1)

/-- The invariant maintained on the vertex table between loop iterations. -/
structure TableInv (points : List Vertex) (table : List Item) : Prop where
  len : table.length = points.length
  idx : ∀ i (h : i < table.length), (table[i]).index = i
  vert : ∀ i (h : i < table.length), (table[i]).vertex = points.get ⟨i, len ▸ h⟩
  root_near : ∀ h : 0 < table.length, (table[0]).near = some 0
  near_spec : ∀ i (h : i < table.length) j, (table[i]).near = some j → i ≠ 0 →
    ∃ hj : j < table.length,
      j ≠ i ∧ (table[j]).near ≠ none ∧
      (table[i]).cost =
        ((Vertex.dist2 (table[i]).vertex (table[j]).vertex : Int) : WithTop Int)

/-- After seeding, the invariant holds and the seeded table is explicit. -/
theorem seed_initTable (points : List Vertex) (hne : points ≠ []) :
    ∃ t0, seed (initTable 0 points) = some t0 ∧ TableInv points t0 ∧
      t0.length = points.length ∧
      (∀ h : 0 < t0.length, (t0[0]).near = some 0) ∧
      (∀ i (h : i < t0.length), i ≠ 0 → (t0[i]).near = none) ∧
      availCount t0 + 1 = points.length := by
  cases hp : points with
  | nil => exact absurd hp hne
  | cons p rest =>
    subst hp
    refine ⟨_, rfl, ?_, ?_, ?_, ?_, ?_⟩
    case refine_2 => simp [initTable, initTable_length]
    case refine_3 => intro h; rfl
    case refine_5 =>
      show availCount ({ Item.new 0 p with near := some 0, cost := (0 : WithTop Int) }
        :: initTable 1 rest) + 1 = rest.length + 1
      have htail : (initTable 1 rest).countP (fun it => decide (it.near = none)) =
          rest.length := availCount_initTable 1 rest
      simp [availCount, List.countP_cons, htail]
    case refine_4 =>
      intro i h hi0
      cases i with
      | zero => exact absurd rfl hi0
      | succ m =>
        have hm : m < (initTable 1 rest).length := by
          simpa [initTable, initTable_length] using h
        have hm2 : m < rest.length := by simpa [initTable_length] using hm
        show ((initTable 1 rest)[m]).near = none
        rw [initTable_getElem 1 rest m hm hm2]
        rfl
    constructor
    case len => simp [initTable, initTable_length]
    case idx =>
      intro i h
      cases i with
      | zero => simp [initTable, Item.new]
      | succ m =>
        have hm : m < (initTable 1 rest).length := by
          simpa [initTable, initTable_length] using h
        have hm2 : m < rest.length := by simpa [initTable_length] using hm
        show ((initTable 1 rest)[m]).index = m + 1
        rw [initTable_getElem 1 rest m hm hm2]
        simp [Item.new, Nat.add_comm]
    case vert =>
      intro i h
      cases i with
      | zero => simp [initTable, Item.new]
      | succ m =>
        have hm : m < (initTable 1 rest).length := by
          simpa [initTable, initTable_length] using h
        have hm2 : m < rest.length := by simpa [initTable_length] using hm
        show ((initTable 1 rest)[m]).vertex = _
        rw [initTable_getElem 1 rest m hm hm2]
        simp [Item.new]
    case root_near => intro h; rfl
    case near_spec =>
      intro i h j hnear hi0
      exfalso
      cases i with
      | zero => exact hi0 rfl
      | succ m =>
        have hm : m < (initTable 1 rest).length := by
          simpa [initTable, initTable_length] using h
        have hm2 : m < rest.length := by simpa [initTable_length] using hm
        have : ((initTable 1 rest)[m]).near = none := by
          rw [initTable_getElem 1 rest m hm hm2]; rfl
        have h2 : ((initTable 1 rest)[m]).near = some j := hnear
        rw [this] at h2
        exact Option.noConfusion h2

/-- A scan accumulator naming a genuine pair: a tree position and an
available position, with the cost being their squared distance. -/
def CandValid (table : List Item) (c : Cand) : Prop :=
  ∃ (ti idx : Nat) (hti : ti < table.length) (hidx : idx < table.length),
    c.tree_index = some ti ∧ c.index = some idx ∧
    (table[ti]).near ≠ none ∧ (table[idx]).near = none ∧
    c.cost = ((Vertex.dist2 (table[ti]).vertex (table[idx]).vertex : Int) : WithTop Int)

/-- Under the invariant, membership in the table determines the position
through the index field. -/
theorem mem_get_of_inv {points : List Vertex} {table : List Item}
    (hT : TableInv points table) {it : Item} (hm : it ∈ table) :
    ∃ h : it.index < table.length, table.get ⟨it.index, h⟩ = it := by
  rcases List.mem_iff_get.mp hm with ⟨n, hget⟩
  have hidx := hT.idx n.val n.isLt
  have : it.index = n.val := by
    rw [← hget]
    simpa [List.get_eq_getElem] using hidx
  rw [this]
  exact ⟨n.isLt, by simpa [List.get_eq_getElem] using hget⟩

theorem scanBody_cost_le (t : Item) (c : Cand) (i : Item) :
    (scanBody t c i).cost ≤ c.cost := by
  unfold scanBody
  split
  · dsimp only
    split
    · next h => exact le_of_lt h
    · exact le_refl _
  · exact le_refl _

theorem foldl_scanBody_cost_le (t : Item) (l : List Item) (c0 : Cand) :
    (l.foldl (scanBody t) c0).cost ≤ c0.cost := by
  induction l generalizing c0 with
  | nil => exact le_refl _
  | cons i rest ih => exact le_trans (ih (scanBody t c0 i)) (scanBody_cost_le t c0 i)

theorem foldl_scanBody_pres {points : List Vertex} {table : List Item}
    (hT : TableInv points table) {t : Item} (ht : t ∈ table) (htn : t.near ≠ none)
    (l : List Item) (hl : ∀ x ∈ l, x ∈ table) (c0 : Cand)
    (hc : c0 = initCand ∨ CandValid table c0) :
    l.foldl (scanBody t) c0 = initCand ∨ CandValid table (l.foldl (scanBody t) c0) := by
  induction l generalizing c0 with
  | nil => exact hc
  | cons i rest ih =>
    refine ih (fun x hx => hl x (List.mem_cons_of_mem _ hx)) (scanBody t c0 i) ?_
    unfold scanBody
    split
    · next hin =>
      dsimp only
      split
      · right
        rcases mem_get_of_inv hT ht with ⟨h1, he1⟩
        rcases mem_get_of_inv hT (hl i (List.mem_cons_self _ _)) with ⟨h2, he2⟩
        refine ⟨t.index, i.index, h1, h2, rfl, rfl, ?_, ?_, ?_⟩
        · rw [show table[t.index] = t from by simpa [List.get_eq_getElem] using he1]
          exact htn
        · rw [show table[i.index] = i from by simpa [List.get_eq_getElem] using he2]
          exact hin
        · rw [show table[t.index] = t from by simpa [List.get_eq_getElem] using he1,
            show table[i.index] = i from by simpa [List.get_eq_getElem] using he2]
      · exact hc
    · exact hc

theorem foldl_scanBody_cover (t : Item) (l : List Item) (c0 : Cand) :
    ∀ i ∈ l, i.near = none →
      (l.foldl (scanBody t) c0).cost ≤
        ((Vertex.dist2 t.vertex i.vertex : Int) : WithTop Int) := by
  induction l generalizing c0 with
  | nil => intro i hi; simp at hi
  | cons hd rest ih =>
    intro i hi hni
    rcases List.mem_cons.mp hi with heq | htl
    · subst heq
      show (rest.foldl (scanBody t) (scanBody t c0 i)).cost ≤ _
      refine le_trans (foldl_scanBody_cost_le t rest _) ?_
      unfold scanBody
      rw [if_pos hni]
      dsimp only
      split
      · exact le_refl _
      · next hlt => exact le_of_not_lt hlt
    · exact ih (scanBody t c0 hd) i htl hni

theorem foldl_scanStep_cost_le (table : List Item) (l : List Item) (c0 : Cand) :
    (l.foldl (scanStep table) c0).cost ≤ c0.cost := by
  induction l generalizing c0 with
  | nil => exact le_refl _
  | cons t rest ih =>
    refine le_trans (ih (scanStep table c0 t)) ?_
    unfold scanStep
    split
    · exact le_refl _
    · exact foldl_scanBody_cost_le t table c0

theorem foldl_scanStep_pres {points : List Vertex} {table : List Item}
    (hT : TableInv points table) (l : List Item) (hl : ∀ x ∈ l, x ∈ table) (c0 : Cand)
    (hc : c0 = initCand ∨ CandValid table c0) :
    l.foldl (scanStep table) c0 = initCand ∨
      CandValid table (l.foldl (scanStep table) c0) := by
  induction l generalizing c0 with
  | nil => exact hc
  | cons t rest ih =>
    refine ih (fun x hx => hl x (List.mem_cons_of_mem _ hx)) (scanStep table c0 t) ?_
    unfold scanStep
    split
    · exact hc
    · next htn =>
      exact foldl_scanBody_pres hT (hl t (List.mem_cons_self _ _)) htn table
        (fun x hx => hx) c0 hc

theorem foldl_scanStep_cover {points : List Vertex} {table : List Item}
    (hT : TableInv points table) (l : List Item) (hl : ∀ x ∈ l, x ∈ table) (c0 : Cand) :
    ∀ t ∈ l, t.near ≠ none → ∀ i ∈ table, i.near = none →
      (l.foldl (scanStep table) c0).cost ≤
        ((Vertex.dist2 t.vertex i.vertex : Int) : WithTop Int) := by
  induction l generalizing c0 with
  | nil => intro t ht; simp at ht
  | cons hd rest ih =>
    intro t ht htn i hi hni
    rcases List.mem_cons.mp ht with heq | htl
    · subst heq
      refine le_trans (foldl_scanStep_cost_le table rest _) ?_
      unfold scanStep
      rw [if_neg (by simpa using htn)]
      exact foldl_scanBody_cover t table c0 i hi hni
    · exact ih (fun x hx => hl x (List.mem_cons_of_mem _ hx)) _ t htl htn i hi hni

/-- When the table holds both a tree vertex and an available vertex, the
scan returns a genuine minimal pair. -/
theorem scanPairs_valid {points : List Vertex} {table : List Item}
    (hT : TableInv points table)
    (ht : ∃ t ∈ table, t.near ≠ none) (hi : ∃ i ∈ table, i.near = none) :
    CandValid table (scanPairs table) := by
  rcases ht with ⟨t, htm, htn⟩
  rcases hi with ⟨i, him, hin⟩
  have hcover := foldl_scanStep_cover hT table (fun x hx => hx) initCand t htm htn i him hin
  rcases foldl_scanStep_pres hT table (fun x hx => hx) initCand (Or.inl rfl) with h | h
  · exfalso
    rw [show (table.foldl (scanStep table) initCand).cost = (⊤ : WithTop Int) from by
      rw [h]; rfl] at hcover
    exact (WithTop.not_top_le_coe _) hcover
  · exact h

/-- The cost of the scanned pair is minimal over every tree-to-available
pair. -/
theorem scanPairs_min {points : List Vertex} {table : List Item}
    (hT : TableInv points table) :
    ∀ t ∈ table, t.near ≠ none → ∀ i ∈ table, i.near = none →
      (scanPairs table).cost ≤
        ((Vertex.dist2 t.vertex i.vertex : Int) : WithTop Int) :=
  foldl_scanStep_cover hT table (fun x hx => hx) initCand

theorem vertices_available_iff (table : List Item) :
    vertices_available table = true ↔ ∃ i ∈ table, i.near = none := by
  unfold vertices_available
  rw [List.any_eq_true]
  simp

theorem availCount_zero_iff (table : List Item) :
    availCount table = 0 ↔ vertices_available table = false := by
  unfold availCount
  rw [List.countP_eq_zero]
  rw [← Bool.not_eq_true, vertices_available_iff]
  simp

theorem availCount_pos (table : List Item) (hav : vertices_available table = true) :
    0 < availCount table := by
  unfold availCount
  rw [List.countP_pos_iff]
  rcases (vertices_available_iff table).mp hav with ⟨i, him, hin⟩
  exact ⟨i, him, by simpa using hin⟩

theorem countP_set_flip (p : Item → Bool) (l : List Item) (i : Nat) (a : Item) :
    ∀ (h : i < l.length), p (l[i]) = true → p a = false →
    (l.set i a).countP p + 1 = l.countP p := by
  induction l generalizing i with
  | nil => intro h; simp at h
  | cons hd tl ih =>
    intro h hold hnew
    cases i with
    | zero =>
      simp only [List.set_cons_zero, List.countP_cons]
      simp only [List.getElem_cons_zero] at hold
      rw [hold, hnew]
      simp [Nat.add_assoc, Nat.add_comm]
    | succ m =>
      have hm : m < tl.length := by simpa using h
      simp only [List.set_cons_succ, List.countP_cons]
      have := ih m hm (by simpa using hold) hnew
      omega

/-- One successful loop iteration: the scanned pair is written into the
table, the invariant is preserved, exactly one vertex loses its UMARK
marker, and the selected pair is distance-minimal over all tree-to-
available pairs. -/
theorem connect_spec {points : List Vertex} {table : List Item}
    (hT : TableInv points table) (hav : vertices_available table = true) :
    ∃ (idx j : Nat) (h : idx < table.length) (hj : j < table.length) (t2 : List Item),
      (table[idx]).near = none ∧ (table[j]).near ≠ none ∧ idx ≠ 0 ∧
      connect table = some t2 ∧
      t2 = table.set idx
        { table.get ⟨idx, h⟩ with
          near := some j,
          cost := ((Vertex.dist2 (table[j]).vertex (table[idx]).vertex : Int) : WithTop Int) } ∧
      TableInv points t2 ∧
      availCount t2 + 1 = availCount table ∧
      (∀ (a b : Nat), a < table.length → b < table.length →
        ∀ (ha2 : a < table.length) (hb2 : b < table.length),
        (table[a]).near ≠ none → (table[b]).near = none →
        Vertex.dist2 (table[j]).vertex (table[idx]).vertex ≤
          Vertex.dist2 (table[a]).vertex (table[b]).vertex) := by
  rcases (vertices_available_iff table).mp hav with ⟨iav, hiavm, hiavn⟩
  have hlen : 0 < table.length := List.length_pos.mpr (List.ne_nil_of_mem hiavm)
  have hroot : (table[0]).near = some 0 := hT.root_near hlen
  have hex_tree : ∃ t ∈ table, t.near ≠ none :=
    ⟨table[0], List.getElem_mem hlen, by rw [hroot]; exact Option.noConfusion⟩
  rcases scanPairs_valid hT hex_tree ⟨iav, hiavm, hiavn⟩ with
    ⟨ti, idx, hti, hidx, hcti, hcidx, htin, hidxn, hcost⟩
  have hidx0 : idx ≠ 0 := by
    intro h0
    subst h0
    rw [hroot] at hidxn
    exact Option.noConfusion hidxn
  have hji : ti ≠ idx := by
    intro h0
    subst h0
    exact htin hidxn
  refine ⟨idx, ti, hidx, hti, _, hidxn, htin, hidx0, ?_, rfl, ?_, ?_, ?_⟩
  · show connect table = _
    unfold connect
    dsimp only
    rw [hcidx]
    dsimp only
    rw [dif_pos hidx]
    have : ({ table.get ⟨idx, hidx⟩ with
        cost := (scanPairs table).cost, near := (scanPairs table).tree_index } : Item) =
        { table.get ⟨idx, hidx⟩ with
          near := some ti,
          cost := ((Vertex.dist2 (table[ti]).vertex (table[idx]).vertex : Int) : WithTop Int) } := by
      rw [hcost, hcti]
    rw [this]
  · -- the invariant is preserved by the write
    set newIt : Item :=
      { table.get ⟨idx, hidx⟩ with
        near := some ti,
        cost := ((Vertex.dist2 (table[ti]).vertex (table[idx]).vertex : Int) : WithTop Int) }
      with hnewIt
    have hlen2 : (table.set idx newIt).length = table.length := by simp
    have hset_at : ∀ (p : Nat) (hp : p < (table.set idx newIt).length)
        (hp2 : p < table.length), p ≠ idx → (table.set idx newIt)[p] = table[p] := by
      intro p hp hp2 hpi
      exact List.getElem_set_of_ne (Ne.symm hpi) _ hp
    have hsidx : idx < (table.set idx newIt).length := by simpa using hidx
    have hset_idx : (table.set idx newIt)[idx] = newIt :=
      List.getElem_set_self hsidx
    have hvert : ∀ (p : Nat) (hp : p < (table.set idx newIt).length)
        (hp2 : p < table.length),
        ((table.set idx newIt)[p]).vertex = (table[p]).vertex := by
      intro p hp hp2
      by_cases hpi : p = idx
      · subst hpi
        rw [hset_idx, hnewIt]
        rfl
      · rw [hset_at p hp hp2 hpi]
    have hindex : ∀ (p : Nat) (hp : p < (table.set idx newIt).length)
        (hp2 : p < table.length),
        ((table.set idx newIt)[p]).index = (table[p]).index := by
      intro p hp hp2
      by_cases hpi : p = idx
      · subst hpi
        rw [hset_idx, hnewIt]
        rfl
      · rw [hset_at p hp hp2 hpi]
    have hnear_at : ∀ (p : Nat) (hp : p < (table.set idx newIt).length)
        (hp2 : p < table.length), p ≠ idx →
        ((table.set idx newIt)[p]).near = (table[p]).near := by
      intro p hp hp2 hpi
      rw [hset_at p hp hp2 hpi]
    have hcost_at : ∀ (p : Nat) (hp : p < (table.set idx newIt).length)
        (hp2 : p < table.length), p ≠ idx →
        ((table.set idx newIt)[p]).cost = (table[p]).cost := by
      intro p hp hp2 hpi
      rw [hset_at p hp hp2 hpi]
    have hnear_idx : ((table.set idx newIt)[idx]).near = some ti := by
      rw [hset_idx, hnewIt]
    have hcost_idx : ((table.set idx newIt)[idx]).cost =
        ((Vertex.dist2 (table[ti]).vertex (table[idx]).vertex : Int) : WithTop Int) := by
      rw [hset_idx, hnewIt]
    constructor
    case len => rw [hlen2]; exact hT.len
    case idx =>
      intro i h
      have h2 : i < table.length := by simpa using h
      rw [hindex i h h2]
      exact hT.idx i h2
    case vert =>
      intro i h
      have h2 : i < table.length := by simpa using h
      rw [hvert i h h2]
      exact hT.vert i h2
    case root_near =>
      intro h
      have h2 : (0 : Nat) < table.length := by simpa using h
      rw [hnear_at 0 h h2 (Ne.symm hidx0)]
      exact hT.root_near h2
    case near_spec =>
      intro i h j2 hnear hi0
      have h2 : i < table.length := by simpa using h
      by_cases hpi : i = idx
      · subst hpi
        rw [hnear_idx] at hnear
        have hj2 : j2 = ti := by injection hnear with hh; exact hh.symm
        subst hj2
        refine ⟨by simpa using hti, hji, ?_, ?_⟩
        · rw [hnear_at j2 (by simpa using hti) hti hji]
          exact htin
        · rw [hcost_idx, hvert i h h2, hvert j2 (by simpa using hti) hti]
          rw [dist2_comm]
      · rw [hnear_at i h h2 hpi] at hnear
        rcases hT.near_spec i h2 j2 hnear hi0 with ⟨hj2, hj2i, hj2n, hj2c⟩
        refine ⟨by simpa using hj2, hj2i, ?_, ?_⟩
        · by_cases hji2 : j2 = idx
          · subst hji2
            simp [hnear_idx]
          · rw [hnear_at j2 (by simpa using hj2) hj2 hji2]
            exact hj2n
        · rw [hcost_at i h h2 hpi, hvert i h h2, hvert j2 (by simpa using hj2) hj2]
          exact hj2c
  · -- exactly one vertex loses the marker
    refine countP_set_flip _ table idx _ hidx (by simpa using hidxn) (by simp)
  · -- minimality over all tree-to-available pairs
    intro a b ha hb ha2 hb2 han hbn
    have hmin := scanPairs_min hT (table[a]) (List.getElem_mem ha) han
      (table[b]) (List.getElem_mem hb) hbn
    rw [hcost] at hmin
    exact_mod_cast hmin

theorem availCount_pos_iff (table : List Item) :
    0 < availCount table ↔ vertices_available table = true := by
  unfold availCount
  rw [List.countP_pos_iff, vertices_available_iff]
  simp

/-- The while loop terminates within the supplied fuel, preserving the
invariant and admitting every vertex. -/
theorem mstLoop_spec : ∀ (fuel : Nat) {points : List Vertex} {table : List Item},
    TableInv points table → availCount table ≤ fuel →
    ∃ tfin, mstLoop fuel table = some tfin ∧ TableInv points tfin ∧
      availCount tfin = 0 := by
  intro fuel
  induction fuel with
  | zero =>
    intro points table hT hle
    have h0 : availCount table = 0 := Nat.le_zero.mp hle
    have hav : vertices_available table = false := (availCount_zero_iff table).mp h0
    exact ⟨table, by simp [mstLoop, hav], hT, h0⟩
  | succ fuel ih =>
    intro points table hT hle
    by_cases hav : vertices_available table = true
    · rcases connect_spec hT hav with
        ⟨idx, j, h, hj, t2, hn1, hn2, hi0, hconn, ht2, hinv2, hcount, hmin⟩
      have hle2 : availCount t2 ≤ fuel := by omega
      rcases ih hinv2 hle2 with ⟨tfin, hloop, hinvf, hcf⟩
      refine ⟨tfin, ?_, hinvf, hcf⟩
      show mstLoop (fuel + 1) table = some tfin
      unfold mstLoop
      rw [if_pos hav, hconn]
      exact hloop
    · have hav2 : vertices_available table = false := by
        simpa using hav
      have h0 : availCount table = 0 := by
        rcases Nat.eq_zero_or_pos (availCount table) with h | h
        · exact h
        · exact absurd ((availCount_pos_iff table).mp h) hav
      exact ⟨table, by simp [mstLoop, hav2], hT, h0⟩

/-- Exactly k iterations of the loop body run while k vertices are
missing, each admitting exactly one vertex. -/
theorem steps_spec : ∀ (k : Nat) {points : List Vertex} {table : List Item},
    TableInv points table → k ≤ availCount table →
    ∃ t, steps k table = some t ∧ TableInv points t ∧
      availCount t + k = availCount table := by
  intro k
  induction k with
  | zero => intro points table hT _; exact ⟨table, rfl, hT, rfl⟩
  | succ k ih =>
    intro points table hT hle
    have hav : vertices_available table = true :=
      (availCount_pos_iff table).mp (by omega)
    rcases connect_spec hT hav with
      ⟨idx, j, h, hj, t2, hn1, hn2, hi0, hconn, ht2, hinv2, hcount, hmin⟩
    have hle2 : k ≤ availCount t2 := by omega
    rcases ih hinv2 hle2 with ⟨t, hsteps, hinvt, hct⟩
    refine ⟨t, ?_, hinvt, by omega⟩
    show steps (k + 1) table = some t
    unfold steps
    rw [hconn]
    exact hsteps

/-- Within sufficient fuel, the guarded while loop performs exactly
availCount table iterations of the body. -/
theorem mstLoop_eq_steps : ∀ (fuel : Nat) {points : List Vertex} {table : List Item},
    TableInv points table → availCount table ≤ fuel →
    mstLoop fuel table = steps (availCount table) table := by
  intro fuel
  induction fuel with
  | zero =>
    intro points table hT hle
    have h0 : availCount table = 0 := Nat.le_zero.mp hle
    have hav : vertices_available table = false := (availCount_zero_iff table).mp h0
    rw [h0]
    simp [mstLoop, steps, hav]
  | succ fuel ih =>
    intro points table hT hle
    by_cases hav : vertices_available table = true
    · rcases connect_spec hT hav with
        ⟨idx, j, h, hj, t2, hn1, hn2, hi0, hconn, ht2, hinv2, hcount, hmin⟩
      have hpos : 0 < availCount table := (availCount_pos_iff table).mpr hav
      have hle2 : availCount t2 ≤ fuel := by omega
      have hstep : steps (availCount table) table = steps (availCount t2) t2 := by
        have heq : availCount table = availCount t2 + 1 := by omega
        rw [heq]
        show (match connect table with
          | none => none
          | some t3 => steps (availCount t2) t3) = steps (availCount t2) t2
        rw [hconn]
      rw [hstep, ← ih hinv2 hle2]
      show (if vertices_available table = true then
          match connect table with
          | none => none
          | some t3 => mstLoop fuel t3
        else some table) = mstLoop fuel t2
      rw [if_pos hav, hconn]
    · have hav2 : vertices_available table = false := by simpa using hav
      have h0 : availCount table = 0 := by
        rcases Nat.eq_zero_or_pos (availCount table) with h | h
        · exact h
        · exact absurd ((availCount_pos_iff table).mp h) hav
      rw [h0]
      simp [mstLoop, steps, hav2]

theorem near_ne_none_of_availCount_zero {table : List Item}
    (hav0 : availCount table = 0) (i : Nat) (h : i < table.length) :
    (table[i]).near ≠ none := by
  unfold availCount at hav0
  rw [List.countP_eq_zero] at hav0
  have := hav0 (table[i]) (List.getElem_mem h)
  simpa using this

/-- Full characterization of the edge-building loop over the positions
from i to i + n on a fully admitted table: it succeeds, emits one edge per
non-root position, and each edge copies the vertex, the nearest vertex and
the stored cost of its position. -/
theorem buildEdgesList_spec {points : List Vertex} {table : List Item}
    (hT : TableInv points table) (hav0 : availCount table = 0) :
    ∀ (n i : Nat), i + n = table.length →
    ∃ es, buildEdgesList table (List.range' i n) = some es ∧
      (es.length + (if i = 0 ∧ 0 < n then 1 else 0) = n) ∧
      (∀ e ∈ es, ∃ (pos j : Nat) (hp : pos < table.length) (hj : j < table.length),
        i ≤ pos ∧ pos ≠ 0 ∧ (table[pos]).near = some j ∧
        e = { u := (table[pos]).vertex, v := (table[j]).vertex,
              length := (table[pos]).cost }) ∧
      (∀ (pos j : Nat) (hp : pos < table.length) (hj : j < table.length),
        i ≤ pos → pos ≠ 0 → (table[pos]).near = some j →
        ({ u := (table[pos]).vertex, v := (table[j]).vertex,
           length := (table[pos]).cost } : Edge) ∈ es) := by
  intro n
  induction n with
  | zero =>
    intro i hlen
    refine ⟨[], rfl, by simp, ?_, ?_⟩
    · intro e he; simp at he
    · intro pos j hp hj hip hp0 hnear
      omega
  | succ n ih =>
    intro i hlen
    have h : i < table.length := by omega
    have hne := near_ne_none_of_availCount_zero hav0 i h
    rcases hj0 : (table[i]).near with _ | j0
    · exact absurd hj0 hne
    have hrange : List.range' i (n + 1) = i :: List.range' (i + 1) n :=
      List.range'_succ i n 1
    have hget : table.get? i = some (table[i]) := by
      rw [List.get?_eq_getElem?, List.getElem?_eq_getElem h]
    rcases ih (i + 1) (by omega) with ⟨es, hb, hlenes, hfwd, hbwd⟩
    by_cases hi0 : i = 0
    · -- the root position is skipped
      subst hi0
      have hroot := hT.root_near h
      have hskip : edgeAt table 0 (table[0]) = some none := by
        unfold edgeAt
        rw [if_pos hroot]
      refine ⟨es, ?_, ?_, ?_, ?_⟩
      · rw [hrange]
        simp only [buildEdgesList, hget, hskip]
        exact hb
      · have h1 : ((0 : Nat) = 0 ∧ 0 < n + 1) := by omega
        rw [if_pos h1]
        have h2 : ¬ ((0 + 1 : Nat) = 0 ∧ 0 < n) := by omega
        rw [if_neg h2] at hlenes
        omega
      · intro e he
        rcases hfwd e he with ⟨pos, j, hp, hjb, hip, hp0, hnear, hedge⟩
        exact ⟨pos, j, hp, hjb, by omega, hp0, hnear, hedge⟩
      · intro pos j hp hjb hip hp0 hnear
        exact hbwd pos j hp hjb (by omega) hp0 hnear
    · -- a non-root position emits one edge
      rcases hT.near_spec i h j0 hj0 hi0 with ⟨hjb0, hji0, hjn0, hjc0⟩
      have hemit : edgeAt table i (table[i]) =
          some (some { u := (table[i]).vertex, v := (table[j0]).vertex,
                       length := (table[i]).cost }) := by
        unfold edgeAt
        rw [if_neg (show ¬ (table[i]).near = some i by
          rw [hj0]
          intro hcon
          injection hcon with hh
          exact hji0 hh)]
        simp only [hj0]
        simp only [List.get?_eq_getElem?, List.getElem?_eq_getElem hjb0]
      refine ⟨{ u := (table[i]).vertex, v := (table[j0]).vertex, length := (table[i]).cost } :: es, ?_, ?_, ?_, ?_⟩
      · rw [hrange]
        simp only [buildEdgesList, hget, hemit, hb]
        rfl
      · simp only [List.length_cons]
        have h1 : ¬ ((i : Nat) = 0 ∧ 0 < n + 1) := by omega
        have h2 : ¬ ((i + 1 : Nat) = 0 ∧ 0 < n) := by omega
        rw [if_neg h1]
        rw [if_neg h2] at hlenes
        omega
      · intro e he
        rcases List.mem_cons.mp he with heq | htl
        · exact ⟨i, j0, h, hjb0, le_refl i, hi0, hj0, heq⟩
        · rcases hfwd e htl with ⟨pos, j, hp, hjb, hip, hp0, hnear, hedge⟩
          exact ⟨pos, j, hp, hjb, by omega, hp0, hnear, hedge⟩
      · intro pos j hp hjb hip hp0 hnear
        by_cases hpi : pos = i
        · subst hpi
          have h2 : (table[pos]).near = some j := hnear
          rw [hj0] at h2
          have hjj : j0 = j := Option.some.inj h2
          subst hjj
          exact List.mem_cons_self _ _
        · exact List.mem_cons_of_mem _ (hbwd pos j hp hjb (by omega) hp0 hnear)

/-- The bundled success lemma for minimum_spanning_tree on a non-empty
point list: it returns Ok, the final table satisfies the invariant with
every vertex admitted, and the edge list has the expected size and
lengths. -/
theorem mst_ok (points : List Vertex) (hne : points ≠ []) :
    ∃ (edges : List Edge) (tfin : List Item),
      minimum_spanning_tree points = RunResult.ok edges ∧
      TableInv points tfin ∧ availCount tfin = 0 ∧
      buildEdges tfin = some edges ∧
      edges.length + 1 = points.length ∧
      ∀ e ∈ edges, e.length = ((Vertex.dist2 e.u e.v : Int) : WithTop Int) := by
  rcases seed_initTable points hne with ⟨t0, hseed, hinv0, hlen0, hroot0, hnone0, hcnt0⟩
  have hlenpos : 0 < points.length := List.length_pos.mpr hne
  have hcle : availCount t0 ≤ points.length := by omega
  rcases mstLoop_spec points.length hinv0 hcle with ⟨tfin, hloop, hinvf, havf⟩
  have hposf : 0 < tfin.length := by rw [hinvf.len]; exact hlenpos
  rcases buildEdgesList_spec hinvf havf tfin.length 0 (by omega) with
    ⟨es, hbuild, hlen, hfwd, hbwd⟩
  have hbuild2 : buildEdges tfin = some es := by
    unfold buildEdges
    rw [List.range_eq_range' tfin.length]
    exact hbuild
  refine ⟨es, tfin, ?_, hinvf, havf, hbuild2, ?_, ?_⟩
  · show minimum_spanning_tree points = RunResult.ok es
    unfold minimum_spanning_tree
    dsimp only
    rw [checkIndices_initTable]
    rw [if_pos rfl]
    rw [hseed]
    show (match mstLoop points.length t0 with
      | none => RunResult.crash
      | some t1 =>
        match buildEdges t1 with
        | none => RunResult.crash
        | some edges => RunResult.ok edges) = RunResult.ok es
    rw [hloop]
    show (match buildEdges tfin with
      | none => RunResult.crash
      | some edges => RunResult.ok edges) = RunResult.ok es
    rw [hbuild2]
  · have hl := hinvf.len
    rw [if_pos (by exact ⟨rfl, hposf⟩)] at hlen
    omega
  · intro e he
    rcases hfwd e he with ⟨pos, j, hp, hj, hip, hp0, hnear, hedge⟩
    rcases hinvf.near_spec pos hp j hnear hp0 with ⟨hj2, hji, hjn, hcost⟩
    subst hedge
    simpa using hcost

/-- C5 counterexample: on the empty input, minimum_spanning_tree panics
(the seeding write vertex_table[0].near = 0 indexes an empty vector); it
does not return an empty edge set. -/
theorem mst_empty_counterexample :
    minimum_spanning_tree ([] : List Vertex) = RunResult.crash ∧
    minimum_spanning_tree ([] : List Vertex) ≠ RunResult.ok [] := by
  constructor
  · rfl
  · decide

/-- C5 (amended): calling minimum_spanning_tree on an empty point sequence
aborts with an out-of-bounds index panic while seeding vertex 0, rather
than returning an edge set or an error. -/
theorem mst_empty_crash :
    minimum_spanning_tree ([] : List Vertex) = RunResult.crash := rfl

/-- C2: for every non-empty input sequence of points, minimum_spanning_tree
returns exactly (number of points - 1) edges; a single-point input yields
an empty edge set. -/
theorem mst_edge_count (points : List Vertex) (hne : points ≠ []) :
    ∃ edges, minimum_spanning_tree points = RunResult.ok edges ∧
      edges.length = points.length - 1 := by
  rcases mst_ok points hne with ⟨edges, tfin, hok, _, _, _, hlen, _⟩
  exact ⟨edges, hok, by omega⟩

/-- Witness for C2 at the single point (5, 5) of the spec scenario. -/
theorem mst_edge_count_witness :
    ([Vertex.new 5 5] ≠ ([] : List Vertex)) ∧
    ∃ edges, minimum_spanning_tree [Vertex.new 5 5] = RunResult.ok edges ∧
      edges.length = [Vertex.new 5 5].length - 1 :=
  ⟨by decide, mst_edge_count [Vertex.new 5 5] (by decide)⟩

/-- C10: for every non-empty input, minimum_spanning_tree returns Ok; the
Err branch of its Result type is never produced, because the builder
constructs Edge values directly without the degeneracy-checking
constructors. -/
theorem mst_never_err (points : List Vertex) (hne : points ≠ []) :
    (∃ edges, minimum_spanning_tree points = RunResult.ok edges) ∧
    ∀ e : Error, minimum_spanning_tree points ≠ RunResult.err e := by
  rcases mst_ok points hne with ⟨edges, tfin, hok, _⟩
  refine ⟨⟨edges, hok⟩, ?_⟩
  intro e hcon
  rw [hok] at hcon
  exact RunResult.noConfusion hcon

/-- Witness for C10 at the three-point spec scenario, whose two MST edges
are axis-aligned (sharing an x or a y coordinate). -/
theorem mst_never_err_witness :
    ([Vertex.new 0 0, Vertex.new 3 0, Vertex.new 3 4] ≠ ([] : List Vertex)) ∧
    (∃ edges, minimum_spanning_tree [Vertex.new 0 0, Vertex.new 3 0, Vertex.new 3 4] =
      RunResult.ok edges) ∧
    ∀ e : Error, minimum_spanning_tree [Vertex.new 0 0, Vertex.new 3 0, Vertex.new 3 4] ≠
      RunResult.err e :=
  ⟨by decide, mst_never_err [Vertex.new 0 0, Vertex.new 3 0, Vertex.new 3 4] (by decide)⟩

/-- C6: every returned edge carries as its stored length the cost recorded
at admission, which equals the recomputed distance between its endpoints
(in the squared model; the f32 length is the same function of this value
on both sides, so equality is bit-for-bit). -/
theorem mst_stored_length (points : List Vertex) (edges : List Edge)
    (hne : points ≠ []) (hok : minimum_spanning_tree points = RunResult.ok edges) :
    ∀ e ∈ edges, e.len = ((Vertex.dist2 e.u e.v : Int) : WithTop Int) := by
  rcases mst_ok points hne with ⟨es, tfin, hok2, _, _, _, _, hcontent⟩
  have hes : es = edges := by
    rw [hok] at hok2
    exact ((RunResult.ok.injEq _ _).mp hok2).symm
  subst hes
  intro e he
  exact hcontent e he

/-- Witness for C6 at the three-point spec scenario with its concrete edge
list. -/
theorem mst_stored_length_witness :
    ([Vertex.new 0 0, Vertex.new 3 0, Vertex.new 3 4] ≠ ([] : List Vertex)) ∧
    (minimum_spanning_tree [Vertex.new 0 0, Vertex.new 3 0, Vertex.new 3 4] =
      RunResult.ok [{ u := Vertex.new 3 0, v := Vertex.new 0 0, length := (9 : WithTop Int) },
        { u := Vertex.new 3 4, v := Vertex.new 3 0, length := (16 : WithTop Int) }]) ∧
    ∀ e ∈ [({ u := Vertex.new 3 0, v := Vertex.new 0 0, length := (9 : WithTop Int) } : Edge),
        { u := Vertex.new 3 4, v := Vertex.new 3 0, length := (16 : WithTop Int) }],
      e.len = ((Vertex.dist2 e.u e.v : Int) : WithTop Int) :=
  ⟨by decide, by decide,
    mst_stored_length [Vertex.new 0 0, Vertex.new 3 0, Vertex.new 3 4] _ (by decide) (by decide)⟩

/-- C4 counterexample: the MST of (0,0) and (1,0) is returned successfully
and contains an edge whose endpoints share their y coordinate, so Edge
values produced by minimum_spanning_tree do not satisfy the constructor
invariant. -/
theorem edge_invariant_counterexample :
    minimum_spanning_tree [Vertex.new 0 0, Vertex.new 1 0] =
      RunResult.ok [{ u := Vertex.new 1 0, v := Vertex.new 0 0, length := (1 : WithTop Int) }] ∧
    ({ u := Vertex.new 1 0, v := Vertex.new 0 0, length := (1 : WithTop Int) } : Edge).u.y =
      ({ u := Vertex.new 1 0, v := Vertex.new 0 0, length := (1 : WithTop Int) } : Edge).v.y := by
  decide

/-- C4 (amended): Edge values built through the checked constructors
Edge::new and Edge::from_vertices satisfy u.x ≠ v.x and u.y ≠ v.y, but
minimum_spanning_tree builds its Edge values directly, bypassing the
checks, and its returned edges can violate the property. -/
theorem edge_constructor_invariant (x0 y0 x1 y1 : Int) (u v : Vertex) (e : Edge) :
    (Edge.new x0 y0 x1 y1 = some e → e.u.x ≠ e.v.x ∧ e.u.y ≠ e.v.y) ∧
    (Edge.from_vertices u v = some e → e.u.x ≠ e.v.x ∧ e.u.y ≠ e.v.y) := by
  constructor
  · intro hnew
    unfold Edge.new at hnew
    split at hnew
    · exact Option.noConfusion hnew
    · split at hnew
      · exact Option.noConfusion hnew
      · next h1 h2 =>
        have he := Option.some.inj hnew
        subst he
        exact ⟨h1, h2⟩
  · intro hnew
    unfold Edge.from_vertices at hnew
    split at hnew
    · exact Option.noConfusion hnew
    · split at hnew
      · exact Option.noConfusion hnew
      · next h1 h2 =>
        have he := Option.some.inj hnew
        subst he
        exact ⟨h1, h2⟩

/-- Witness for the amended C4 at the concrete edge from (0,0) to (1,2). -/
theorem edge_constructor_invariant_witness :
    (Edge.new 0 0 1 2 =
      some { u := Vertex.new 0 0, v := Vertex.new 1 2, length := (5 : WithTop Int) }) ∧
    (({ u := Vertex.new 0 0, v := Vertex.new 1 2, length := (5 : WithTop Int) } : Edge).u.x ≠
        ({ u := Vertex.new 0 0, v := Vertex.new 1 2, length := (5 : WithTop Int) } : Edge).v.x ∧
      ({ u := Vertex.new 0 0, v := Vertex.new 1 2, length := (5 : WithTop Int) } : Edge).u.y ≠
        ({ u := Vertex.new 0 0, v := Vertex.new 1 2, length := (5 : WithTop Int) } : Edge).v.y) :=
  ⟨by decide,
    (edge_constructor_invariant 0 0 1 2 (Vertex.new 0 0) (Vertex.new 1 2) _).1 (by decide)⟩

/-- C8: edge construction is rejected (the constructor asserts and the
process aborts) exactly when the endpoints share a coordinate; otherwise
it succeeds with the endpoints in order and the length equal to the
distance between them (squared model).  Edge::from_vertices performs the
identical checks and construction. -/
theorem edge_construction (x0 y0 x1 y1 : Int) :
    (Edge.new x0 y0 x1 y1 = none ↔ x0 = x1 ∨ y0 = y1) ∧
    (Edge.from_vertices (Vertex.new x0 y0) (Vertex.new x1 y1) = Edge.new x0 y0 x1 y1) ∧
    (x0 ≠ x1 → y0 ≠ y1 → Edge.new x0 y0 x1 y1 =
      some { u := Vertex.new x0 y0, v := Vertex.new x1 y1,
             length := ((Vertex.dist2 (Vertex.new x0 y0) (Vertex.new x1 y1) : Int) : WithTop Int) }) := by
  refine ⟨?_, ?_, ?_⟩
  · unfold Edge.new
    split
    · next h => simp [h]
    · split
      · next h => simp [h]
      · next h1 h2 => simp [h1, h2]
  · unfold Edge.new Edge.from_vertices Vertex.new
    rfl
  · intro h1 h2
    unfold Edge.new
    rw [if_neg h1, if_neg h2]

/-- Witness for C8 at the concrete edge from (0,0) to (3,4). -/
theorem edge_construction_witness :
    ((0 : Int) ≠ 3) ∧ ((0 : Int) ≠ 4) ∧
    Edge.new 0 0 3 4 =
      some { u := Vertex.new 0 0, v := Vertex.new 3 4,
             length := ((Vertex.dist2 (Vertex.new 0 0) (Vertex.new 3 4) : Int) : WithTop Int) } :=
  ⟨by decide, by decide, (edge_construction 0 0 3 4).2.2 (by decide) (by decide)⟩

theorem foldl_minBody_le_init (v : Vertex) (l : List Vertex) (c0 : WithTop Int) :
    l.foldl (minBody v) c0 ≤ c0 := by
  induction l generalizing c0 with
  | nil => exact le_refl _
  | cons p rest ih =>
    refine le_trans (ih (minBody v c0 p)) ?_
    unfold minBody
    dsimp only
    split
    · next h => exact le_of_lt h
    · exact le_refl _

theorem minimum_distance_le (v : Vertex) (points : List Vertex) :
    ∀ p ∈ points, minimum_distance v points ≤ ((Vertex.dist2 v p : Int) : WithTop Int) := by
  unfold minimum_distance
  generalize FMARK = c0
  induction points generalizing c0 with
  | nil => intro p hp; simp at hp
  | cons hd rest ih =>
    intro p hp
    rcases List.mem_cons.mp hp with heq | htl
    · subst heq
      refine le_trans (foldl_minBody_le_init v rest _) ?_
      unfold minBody
      dsimp only
      split
      · exact le_refl _
      · next h => exact le_of_not_lt h
    · exact ih (minBody v c0 hd) p htl

/-- When the acceptance test passes with a positive threshold, every
accepted point is at squared distance at least the squared threshold. -/
theorem sqrtGe_spec {m : WithTop Int} {q : ℚ} (hq : 0 < q)
    (h : sqrtGe m q = true) :
    ∀ z : Int, m ≤ ((z : Int) : WithTop Int) → q ^ 2 ≤ (z : ℚ) := by
  intro z hmz
  unfold sqrtGe at h
  rw [Bool.or_eq_true, decide_eq_true_iff, decide_eq_true_iff] at h
  rcases h with h | h
  · exact absurd h (not_le_of_lt hq)
  · cases m with
    | top => exact absurd hmz (by simp)
    | coe w =>
      have hwz : w ≤ z := by exact_mod_cast hmz
      rw [WithTop.map_coe] at h
      have hq2w : q ^ 2 ≤ (w : ℚ) := by exact_mod_cast h
      have : (w : ℚ) ≤ (z : ℚ) := by exact_mod_cast hwz
      linarith

/-- The sampling loop invariant: starting from an accepted prefix that is
inside the rectangle and pairwise separated, a successful run returns
exactly n points inside the rectangle and pairwise separated. -/
theorem generateLoop_spec (n : Nat) (min_d : ℚ) (draws : Nat → Int × Int)
    (min_x min_y max_x max_y : Int) (hmin_d : 0 < min_d)
    (hdraws : ∀ k, min_x ≤ (draws k).1 ∧ (draws k).1 ≤ max_x ∧
      min_y ≤ (draws k).2 ∧ (draws k).2 ≤ max_y) :
    ∀ (fuel k : Nat) (acc pts : List Vertex),
    (∀ p ∈ acc, min_x ≤ p.x ∧ p.x ≤ max_x ∧ min_y ≤ p.y ∧ p.y ≤ max_y) →
    acc.Pairwise (fun p q => min_d ^ 2 ≤ ((Vertex.dist2 p q : Int) : ℚ)) →
    acc.length ≤ n →
    generateLoop n min_d draws fuel k acc = some pts →
    pts.length = n ∧
    (∀ p ∈ pts, min_x ≤ p.x ∧ p.x ≤ max_x ∧ min_y ≤ p.y ∧ p.y ≤ max_y) ∧
    pts.Pairwise (fun p q => min_d ^ 2 ≤ ((Vertex.dist2 p q : Int) : ℚ)) := by
  intro fuel
  induction fuel with
  | zero =>
    intro k acc pts hrect hpair hle heq
    exact Option.noConfusion heq
  | succ fuel ih =>
    intro k acc pts hrect hpair hle heq
    unfold generateLoop at heq
    split at heq
    · next hlt =>
      dsimp only at heq
      split at heq
      · next hacc =>
        set v := Vertex.new (draws k).1 (draws k).2 with hv
        refine ih (k + 1) (acc ++ [v]) pts ?_ ?_ ?_ heq
        · intro p hp
          rcases List.mem_append.mp hp with hpa | hpv
          · exact hrect p hpa
          · have : p = v := by simpa using hpv
            subst this
            rcases hdraws k with ⟨h1, h2, h3, h4⟩
            exact ⟨h1, h2, h3, h4⟩
        · rw [List.pairwise_append]
          refine ⟨hpair, by simp, ?_⟩
          intro p hpa q hqv
          have hqv2 : q = v := by simpa using hqv
          subst hqv2
          have hmd := minimum_distance_le v acc p hpa
          have := sqrtGe_spec hmin_d hacc (Vertex.dist2 v p) hmd
          rw [dist2_comm] at this
          exact this
        · simp only [List.length_append, List.length_singleton]
          omega
      · exact ih (k + 1) acc pts hrect hpair hle heq
    · next hge =>
      have hpts : acc = pts := Option.some.inj heq
      subst hpts
      have : acc.length = n := by omega
      exact ⟨this, hrect, hpair⟩

/-- The top-level shape of generate: the six assertions first, then the
sampling loop wrapped in Ok. -/
theorem generate_eq (n : Int) (min_d : ℚ) (min_x min_y max_x max_y : Int)
    (draws : Nat → Int × Int) (fuel : Nat) :
    generate n min_d min_x min_y max_x max_y draws fuel =
      if n > 0 ∧ min_d > 1 ∧ min_x < max_x ∧ min_y < max_y ∧
          max_x - min_x > Int.tdiv (n * ⌈min_d⌉) 20 ∧
          max_y - min_y > Int.tdiv (n * ⌈min_d⌉) 20 then
        (generateLoop n.toNat min_d draws fuel 0 []).map RunResult.ok
      else some RunResult.crash := by
  unfold generate
  split_ifs with h1 h2 h3 h4 h5 h6 h7 <;> first
    | rfl
    | (exfalso; tauto)

/-- C9 (amended): generate validates its parameters with assertions and
aborts (a panic, modelled as crash) exactly when one of the six
preconditions is violated; a failure is never surfaced as an Err value. -/
theorem generate_preconditions (n : Int) (min_d : ℚ) (min_x min_y max_x max_y : Int)
    (draws : Nat → Int × Int) (fuel : Nat) :
    (generate n min_d min_x min_y max_x max_y draws fuel = some RunResult.crash ↔
      ¬ (n > 0 ∧ min_d > 1 ∧ min_x < max_x ∧ min_y < max_y ∧
         max_x - min_x > Int.tdiv (n * ⌈min_d⌉) 20 ∧
         max_y - min_y > Int.tdiv (n * ⌈min_d⌉) 20)) ∧
    ∀ e : Error, generate n min_d min_x min_y max_x max_y draws fuel ≠
      some (RunResult.err e) := by
  rw [generate_eq]
  by_cases hc : n > 0 ∧ min_d > 1 ∧ min_x < max_x ∧ min_y < max_y ∧
      max_x - min_x > Int.tdiv (n * ⌈min_d⌉) 20 ∧
      max_y - min_y > Int.tdiv (n * ⌈min_d⌉) 20
  · rw [if_pos hc]
    constructor
    · constructor
      · intro hcon
        cases hl : generateLoop n.toNat min_d draws fuel 0 [] with
        | none => rw [hl] at hcon; exact Option.noConfusion hcon
        | some pts =>
          rw [hl] at hcon
          have := Option.some.inj hcon
          exact RunResult.noConfusion this
      · intro hcon
        exact absurd hc hcon
    · intro e hcon
      cases hl : generateLoop n.toNat min_d draws fuel 0 [] with
      | none => rw [hl] at hcon; exact Option.noConfusion hcon
      | some pts =>
        rw [hl] at hcon
        have := Option.some.inj hcon
        exact RunResult.noConfusion this
  · rw [if_neg hc]
    refine ⟨by simp [hc], ?_⟩
    intro e hcon
    have := Option.some.inj hcon
    exact RunResult.noConfusion this

/-- C9 counterexample: with n = 0 the failure is a panic (crash), not an
error value, contradicting the claim that violated preconditions are
returned as errors. -/
theorem generate_error_counterexample :
    generate 0 2 0 0 10 10 (fun _ => (0, 0)) 1 = some RunResult.crash ∧
    ∀ e : Error, generate 0 2 0 0 10 10 (fun _ => (0, 0)) 1 ≠
      some (RunResult.err e) := by
  constructor
  · decide
  · intro e hcon
    cases e
    revert hcon
    decide

/-- C3: whenever generate succeeds (with draws ranged like gen_range), it
returns exactly n points, all inside the closed rectangle, and any two
distinct returned points are at Euclidean distance at least min_d. -/
theorem generate_output (n : Int) (min_d : ℚ) (min_x min_y max_x max_y : Int)
    (draws : Nat → Int × Int) (fuel : Nat) (pts : List Vertex)
    (hdraws : ∀ k, min_x ≤ (draws k).1 ∧ (draws k).1 ≤ max_x ∧
      min_y ≤ (draws k).2 ∧ (draws k).2 ≤ max_y)
    (hok : generate n min_d min_x min_y max_x max_y draws fuel =
      some (RunResult.ok pts)) :
    (pts.length : Int) = n ∧
    (∀ p ∈ pts, min_x ≤ p.x ∧ p.x ≤ max_x ∧ min_y ≤ p.y ∧ p.y ≤ max_y) ∧
    (∀ p ∈ pts, ∀ q ∈ pts, p ≠ q → (min_d : ℝ) ≤ Vertex.distance p q) := by
  rw [generate_eq] at hok
  split_ifs at hok with hc
  · rcases hc with ⟨hn, hmd, _, _, _, _⟩
    have hloop : generateLoop n.toNat min_d draws fuel 0 [] = some pts := by
      cases hl : generateLoop n.toNat min_d draws fuel 0 [] with
      | none => rw [hl] at hok; exact Option.noConfusion hok
      | some pts2 =>
        rw [hl] at hok
        have h2 : RunResult.ok pts2 = RunResult.ok pts := Option.some.inj hok
        have h3 : pts2 = pts := by injection h2
        rw [h3]
    have hmd0 : 0 < min_d := lt_trans one_pos hmd
    rcases generateLoop_spec n.toNat min_d draws min_x min_y max_x max_y hmd0 hdraws
        fuel 0 [] pts (by simp) (by simp) (by simp) hloop with ⟨hlen, hrect, hpair⟩
    refine ⟨?_, hrect, ?_⟩
    · rw [hlen]
      exact Int.toNat_of_nonneg (le_of_lt hn)
    · have hsymm : Symmetric (fun p q => min_d ^ 2 ≤ ((Vertex.dist2 p q : Int) : ℚ)) := by
        intro p q hpq
        rw [dist2_comm]
        exact hpq
      have hall := List.Pairwise.forall hsymm hpair
      intro p hp q hq hne
      have hsq : min_d ^ 2 ≤ ((Vertex.dist2 p q : Int) : ℚ) := hall hp hq hne
      unfold Vertex.distance
      have h0 : (0 : ℝ) ≤ ((Vertex.dist2 p q : Int) : ℝ) := by
        exact_mod_cast dist2_nonneg p q
      rw [Real.le_sqrt (by positivity)]
      · calc ((min_d : ℝ)) ^ 2 = ((min_d ^ 2 : ℚ) : ℝ) := by push_cast; ring
          _ ≤ ((Vertex.dist2 p q : Int) : ℝ) := by exact_mod_cast hsq
      · exact h0
  · exact absurd (Option.some.inj hok) (fun h => RunResult.noConfusion h)

/-- Witness for C3: one point requested in the square [0,10] x [0,10] with
minimum distance 2 and a constant draw stream at the origin. -/
theorem generate_output_witness :
    (∀ k : Nat, (0 : Int) ≤ ((fun (_ : Nat) => ((0 : Int), (0 : Int))) k).1 ∧
      ((fun (_ : Nat) => ((0 : Int), (0 : Int))) k).1 ≤ 10 ∧
      (0 : Int) ≤ ((fun (_ : Nat) => ((0 : Int), (0 : Int))) k).2 ∧
      ((fun (_ : Nat) => ((0 : Int), (0 : Int))) k).2 ≤ 10) ∧
    (generate 1 2 0 0 10 10 (fun _ => (0, 0)) 2 =
      some (RunResult.ok [Vertex.new 0 0])) ∧
    (([Vertex.new 0 0] : List Vertex).length : Int) = 1 ∧
    (∀ p ∈ [Vertex.new 0 0], (0 : Int) ≤ p.x ∧ p.x ≤ 10 ∧ (0 : Int) ≤ p.y ∧ p.y ≤ 10) ∧
    (∀ p ∈ [Vertex.new 0 0], ∀ q ∈ [Vertex.new 0 0], p ≠ q →
      ((2 : ℚ) : ℝ) ≤ Vertex.distance p q) := by
  refine ⟨?_, by decide, ?_⟩
  · intro k
    refine ⟨by norm_num, by norm_num, by norm_num, by norm_num⟩
  · exact generate_output 1 2 0 0 10 10 (fun _ => (0, 0)) 2 [Vertex.new 0 0]
      (fun k => ⟨by norm_num, by norm_num, by norm_num, by norm_num⟩) (by decide)

/-- C7: for a non-empty input of n points the selection loop terminates
after exactly n - 1 iterations: within its fuel the guarded loop equals
n - 1 unguarded body steps; before each of those steps a vertex is still
missing and the step rewrites exactly one table entry, changing its
marker from the sentinel to a valid index; after the n - 1 steps no vertex
is missing. -/
theorem mst_loop_iterations (points : List Vertex) (hne : points ≠ []) :
    ∃ t0, seed (initTable 0 points) = some t0 ∧
      mstLoop points.length t0 = steps (points.length - 1) t0 ∧
      (∃ tfin, steps (points.length - 1) t0 = some tfin ∧
        vertices_available tfin = false) ∧
      (∀ k, k < points.length - 1 →
        ∃ t, steps k t0 = some t ∧ vertices_available t = true ∧
          ∃ (idx j : Nat) (h : idx < t.length) (hj : j < t.length), idx ≠ 0 ∧
            (t[idx]).near = none ∧
            connect t = some (t.set idx
              { t.get ⟨idx, h⟩ with
                near := some j,
                cost := ((Vertex.dist2 (t[j]).vertex (t[idx]).vertex : Int) : WithTop Int) })) := by
  rcases seed_initTable points hne with ⟨t0, hseed, hinv0, hlen0, hroot0, hnone0, hcnt0⟩
  have hlenpos : 0 < points.length := List.length_pos.mpr hne
  have hcnt : availCount t0 = points.length - 1 := by omega
  refine ⟨t0, hseed, ?_, ?_, ?_⟩
  · rw [← hcnt]
    exact mstLoop_eq_steps points.length hinv0 (by omega)
  · rcases steps_spec (points.length - 1) hinv0 (by omega) with ⟨tfin, hsteps, hinvf, hcf⟩
    refine ⟨tfin, hsteps, ?_⟩
    have : availCount tfin = 0 := by omega
    exact (availCount_zero_iff tfin).mp this
  · intro k hk
    rcases steps_spec k hinv0 (by omega) with ⟨t, hsteps, hinvt, hct⟩
    have hav : vertices_available t = true := by
      refine (availCount_pos_iff t).mp ?_
      omega
    rcases connect_spec hinvt hav with
      ⟨idx, j, h, hj, t2, hn1, hn2, hi0, hconn, ht2, hinv2, hcount, hmin⟩
    refine ⟨t, hsteps, hav, idx, j, h, hj, hi0, hn1, ?_⟩
    rw [hconn, ht2]

/-- Witness for C7 at the four corners of the unit square. -/
theorem mst_loop_iterations_witness :
    ([Vertex.new 0 0, Vertex.new 1 0, Vertex.new 0 1, Vertex.new 1 1] ≠ ([] : List Vertex)) ∧
    ∃ t0, seed (initTable 0 [Vertex.new 0 0, Vertex.new 1 0, Vertex.new 0 1, Vertex.new 1 1]) = some t0 ∧
      mstLoop [Vertex.new 0 0, Vertex.new 1 0, Vertex.new 0 1, Vertex.new 1 1].length t0 =
        steps ([Vertex.new 0 0, Vertex.new 1 0, Vertex.new 0 1, Vertex.new 1 1].length - 1) t0 ∧
      (∃ tfin, steps ([Vertex.new 0 0, Vertex.new 1 0, Vertex.new 0 1, Vertex.new 1 1].length - 1) t0 = some tfin ∧
        vertices_available tfin = false) ∧
      (∀ k, k < [Vertex.new 0 0, Vertex.new 1 0, Vertex.new 0 1, Vertex.new 1 1].length - 1 →
        ∃ t, steps k t0 = some t ∧ vertices_available t = true ∧
          ∃ (idx j : Nat) (h : idx < t.length) (hj : j < t.length), idx ≠ 0 ∧
            (t[idx]).near = none ∧
            connect t = some (t.set idx
              { t.get ⟨idx, h⟩ with
                near := some j,
                cost := ((Vertex.dist2 (t[j]).vertex (t[idx]).vertex : Int) : WithTop Int) })) :=
  ⟨by decide,
    mst_loop_iterations [Vertex.new 0 0, Vertex.new 1 0, Vertex.new 0 1, Vertex.new 1 1] (by decide)⟩

section PrimAbstract

variable {V : Type} [Fintype V] [DecidableEq V]

/-- Abstract trace of the Prim selection process with edge weights wt:
start from a single root; at each step attach a vertex b outside the
current tree S to a vertex a inside it, by an edge of globally minimal
weight among all edges crossing the cut around S. -/
inductive PrimTrace (wt : Sym2 V → ℝ) : Finset V → Finset (Sym2 V) → Prop
  | init (r : V) : PrimTrace wt {r} ∅
  | step (S : Finset V) (F : Finset (Sym2 V)) (a b : V) (ha : a ∈ S) (hb : b ∉ S)
      (hmin : ∀ x ∈ S, ∀ y, y ∉ S → wt s(a, b) ≤ wt s(x, y))
      (hprev : PrimTrace wt S F) :
      PrimTrace wt (insert b S) (insert s(a, b) F)

/-- A spanning tree given as a finite set of undirected edges: no loops,
and the generated graph is connected and acyclic. -/
def IsSpanTree (T : Finset (Sym2 V)) : Prop :=
  (∀ s ∈ T, ¬ s.IsDiag) ∧
  (SimpleGraph.fromEdgeSet (T : Set (Sym2 V))).Connected ∧
  (SimpleGraph.fromEdgeSet (T : Set (Sym2 V))).IsAcyclic

theorem PrimTrace.endpoints_mem {wt : Sym2 V → ℝ} {S : Finset V} {F : Finset (Sym2 V)}
    (h : PrimTrace wt S F) : ∀ s ∈ F, ∀ v ∈ s, v ∈ S := by
  induction h with
  | init r => intro s hs; simp at hs
  | step S' F' a b ha hb hmin hprev ih =>
    intro s hs v hv
    rcases Finset.mem_insert.mp hs with heq | hmem
    · subst heq
      rw [Sym2.mem_iff] at hv
      rcases hv with rfl | rfl
      · exact Finset.mem_insert_of_mem ha
      · exact Finset.mem_insert_self _ _
    · exact Finset.mem_insert_of_mem (ih s hmem v hv)

theorem PrimTrace.nodiag {wt : Sym2 V → ℝ} {S : Finset V} {F : Finset (Sym2 V)}
    (h : PrimTrace wt S F) : ∀ s ∈ F, ¬ s.IsDiag := by
  induction h with
  | init r => intro s hs; simp at hs
  | step S' F' a b ha hb hmin hprev ih =>
    intro s hs
    rcases Finset.mem_insert.mp hs with heq | hmem
    · subst heq
      rw [Sym2.mk_isDiag_iff]
      intro hab
      subst hab
      exact hb ha
    · exact ih s hmem

theorem PrimTrace.new_edge_not_mem {wt : Sym2 V → ℝ} {S : Finset V} {F : Finset (Sym2 V)}
    (h : PrimTrace wt S F) {a b : V} (hb : b ∉ S) : s(a, b) ∉ F := by
  intro hmem
  exact hb (h.endpoints_mem _ hmem b (Sym2.mem_mk_right a b))

theorem PrimTrace.card_eq {wt : Sym2 V → ℝ} {S : Finset V} {F : Finset (Sym2 V)}
    (h : PrimTrace wt S F) : F.card + 1 = S.card := by
  induction h with
  | init r => simp
  | step S' F' a b ha hb hmin hprev ih =>
    rw [Finset.card_insert_of_not_mem (hprev.new_edge_not_mem hb),
      Finset.card_insert_of_not_mem hb]
    omega

theorem PrimTrace.vertex_nonempty {wt : Sym2 V → ℝ} {S : Finset V} {F : Finset (Sym2 V)}
    (h : PrimTrace wt S F) : S.Nonempty := by
  induction h with
  | init r => exact ⟨r, Finset.mem_singleton_self r⟩
  | step S' F' a b ha hb hmin hprev ih => exact ⟨b, Finset.mem_insert_self b _⟩

theorem PrimTrace.reach {wt : Sym2 V → ℝ} {S : Finset V} {F : Finset (Sym2 V)}
    (h : PrimTrace wt S F) : ∀ u ∈ S, ∀ v ∈ S,
      (SimpleGraph.fromEdgeSet (F : Set (Sym2 V))).Reachable u v := by
  induction h with
  | init r =>
    intro u hu v hv
    rw [Finset.mem_singleton] at hu hv
    subst hu; subst hv
    exact SimpleGraph.Reachable.refl _
  | step S' F' a b ha hb hmin hprev ih =>
    intro u hu v hv
    have hmono : SimpleGraph.fromEdgeSet (F' : Set (Sym2 V)) ≤
        SimpleGraph.fromEdgeSet ((insert s(a, b) F' : Finset (Sym2 V)) : Set (Sym2 V)) :=
      SimpleGraph.fromEdgeSet_mono (by
        intro s hs
        simp only [Finset.coe_insert, Set.mem_insert_iff]
        right
        exact hs)
    have hab : a ≠ b := fun hab => hb (hab ▸ ha)
    have hadj : (SimpleGraph.fromEdgeSet
        ((insert s(a, b) F' : Finset (Sym2 V)) : Set (Sym2 V))).Adj a b := by
      rw [SimpleGraph.fromEdgeSet_adj]
      exact ⟨by simp, hab⟩
    have hreach_b : ∀ x ∈ S', (SimpleGraph.fromEdgeSet
        ((insert s(a, b) F' : Finset (Sym2 V)) : Set (Sym2 V))).Reachable x b := by
      intro x hx
      exact SimpleGraph.Reachable.trans
        ((ih x hx a ha).mono hmono) hadj.reachable
    rcases Finset.mem_insert.mp hu with rfl | huS
    · rcases Finset.mem_insert.mp hv with rfl | hvS
      · exact SimpleGraph.Reachable.refl _
      · exact ((hreach_b v hvS).symm : _)
    · rcases Finset.mem_insert.mp hv with rfl | hvS
      · exact hreach_b u huS
      · exact ((ih u huS v hvS).mono hmono)

/-- A path from inside the cut to outside the cut contains a crossing
edge, and the path splits around its first crossing edge. -/
theorem walk_cross {G : SimpleGraph V} {S : Finset V} :
    ∀ {a b : V} (p : G.Walk a b), p.IsPath → a ∈ S → b ∉ S →
    ∃ (x y : V) (hadj : G.Adj x y) (p1 : G.Walk a x) (p2 : G.Walk y b),
      x ∈ S ∧ y ∉ S ∧ s(x, y) ∈ p.edges ∧
      s(x, y) ∉ p1.edges ∧ s(x, y) ∉ p2.edges ∧
      (∀ e ∈ p1.edges, e ∈ p.edges) ∧ (∀ e ∈ p2.edges, e ∈ p.edges) := by
  intro a b p
  induction p with
  | nil =>
    intro _ ha hb
    exact absurd ha hb
  | cons hadj0 q ih =>
    next u c b0 =>
    intro hp ha hb
    have hq : q.IsPath := hp.of_cons
    have hnd : (s(u, c) :: q.edges).Nodup := by
      have := hp.isTrail.edges_nodup
      simpa [SimpleGraph.Walk.edges_cons] using this
    have hhead : s(u, c) ∉ q.edges := (List.nodup_cons.mp hnd).1
    by_cases hc : c ∈ S
    · rcases ih hq hc hb with ⟨x, y, hadj, q1, q2, hx, hy, hmem, hn1, hn2, hs1, hs2⟩
      refine ⟨x, y, hadj, SimpleGraph.Walk.cons hadj0 q1, q2, hx, hy, ?_, ?_, hn2, ?_, ?_⟩
      · rw [SimpleGraph.Walk.edges_cons]
        exact List.mem_cons_of_mem _ hmem
      · rw [SimpleGraph.Walk.edges_cons]
        rw [List.mem_cons]
        rintro (heq | hq1)
        · rw [← heq] at hhead
          exact hhead hmem
        · exact hn1 hq1
      · intro e he
        rw [SimpleGraph.Walk.edges_cons] at he ⊢
        rcases List.mem_cons.mp he with heq | hq1
        · exact List.mem_cons.mpr (Or.inl heq)
        · exact List.mem_cons_of_mem _ (hs1 e hq1)
      · intro e he
        rw [SimpleGraph.Walk.edges_cons]
        exact List.mem_cons_of_mem _ (hs2 e he)
    · refine ⟨u, c, hadj0, SimpleGraph.Walk.nil, q, ha, hc, ?_, ?_, hhead, ?_, ?_⟩
      · rw [SimpleGraph.Walk.edges_cons]
        exact List.mem_cons_self _ _
      · simp
      · intro e he
        simp at he
      · intro e he
        rw [SimpleGraph.Walk.edges_cons]
        exact List.mem_cons_of_mem _ he

/-- Reachability transfers along any relation that sends adjacency to
reachability. -/
theorem reach_of_adj_reach {G H : SimpleGraph V}
    (hGH : ∀ u v, G.Adj u v → H.Reachable u v) :
    ∀ {u v : V}, G.Reachable u v → H.Reachable u v := by
  intro u v h
  rcases h with ⟨p⟩
  induction p with
  | nil => exact SimpleGraph.Reachable.refl _
  | cons hadj q ih => exact (hGH _ _ hadj).trans ih

/-- The exchange step: a spanning tree T not containing the cut edge
s(a,b) contains an edge f crossing the same cut such that swapping f for
s(a,b) again yields a spanning tree. -/
theorem spanTree_exchange {T : Finset (Sym2 V)} (hT : IsSpanTree T)
    {S : Finset V} {a b : V} (ha : a ∈ S) (hb : b ∉ S) (hab : a ≠ b)
    (he : s(a, b) ∉ T) :
    ∃ f ∈ T, (∃ x y, f = s(x, y) ∧ x ∈ S ∧ y ∉ S) ∧
      IsSpanTree (insert s(a, b) (T.erase f)) := by
  obtain ⟨hdiag, hconn, hacyc⟩ := hT
  have hedgeT : ∀ {u v : V} (w : (SimpleGraph.fromEdgeSet (T : Set (Sym2 V))).Walk u v),
      ∀ e ∈ w.edges, e ∈ T ∧ ¬ e.IsDiag := by
    intro u v w e hew
    have h2 := w.edges_subset_edgeSet hew
    rw [SimpleGraph.edgeSet_fromEdgeSet] at h2
    rcases h2 with ⟨h1, h2⟩
    exact ⟨by exact_mod_cast h1, h2⟩
  obtain ⟨p0⟩ := hconn.preconnected a b
  obtain ⟨x, y, hadj, p1, p2, hx, hy, hmemf, hn1, hn2, hs1, hs2⟩ :=
    walk_cross (p0.toPath : (SimpleGraph.fromEdgeSet (T : Set (Sym2 V))).Walk a b)
      p0.toPath.2 ha hb
  have hfT : s(x, y) ∈ T :=
    (hedgeT (p0.toPath : (SimpleGraph.fromEdgeSet (T : Set (Sym2 V))).Walk a b)
      s(x, y) hmemf).1
  have hxy : x ≠ y := hadj.ne
  have hadjH : ∀ {u v : V}, s(u, v) ∈ insert s(a, b) (T.erase s(x, y)) → u ≠ v →
      (SimpleGraph.fromEdgeSet
        ((insert s(a, b) (T.erase s(x, y)) : Finset (Sym2 V)) : Set (Sym2 V))).Adj u v := by
    intro u v hm hne
    rw [SimpleGraph.fromEdgeSet_adj]
    exact ⟨by exact_mod_cast hm, hne⟩
  have hHab : (SimpleGraph.fromEdgeSet
      ((insert s(a, b) (T.erase s(x, y)) : Finset (Sym2 V)) : Set (Sym2 V))).Adj a b :=
    hadjH (Finset.mem_insert_self _ _) hab
  have hedges_p1 : ∀ e ∈ p1.edges, e ∈ (SimpleGraph.fromEdgeSet
      ((T.erase s(x, y) : Finset (Sym2 V)) : Set (Sym2 V))).edgeSet := by
    intro e hep
    rw [SimpleGraph.edgeSet_fromEdgeSet]
    refine ⟨?_, (hedgeT p1 e hep).2⟩
    have heT : e ∈ T := (hedgeT p1 e hep).1
    have hef : e ≠ s(x, y) := fun hef => hn1 (hef ▸ hep)
    exact_mod_cast Finset.mem_erase.mpr ⟨hef, heT⟩
  have hedges_p2 : ∀ e ∈ p2.edges, e ∈ (SimpleGraph.fromEdgeSet
      ((T.erase s(x, y) : Finset (Sym2 V)) : Set (Sym2 V))).edgeSet := by
    intro e hep
    rw [SimpleGraph.edgeSet_fromEdgeSet]
    refine ⟨?_, (hedgeT p2 e hep).2⟩
    have heT : e ∈ T := (hedgeT p2 e hep).1
    have hef : e ≠ s(x, y) := fun hef => hn2 (hef ▸ hep)
    exact_mod_cast Finset.mem_erase.mpr ⟨hef, heT⟩
  have herase_le_H : SimpleGraph.fromEdgeSet
        ((T.erase s(x, y) : Finset (Sym2 V)) : Set (Sym2 V)) ≤
      SimpleGraph.fromEdgeSet
        ((insert s(a, b) (T.erase s(x, y)) : Finset (Sym2 V)) : Set (Sym2 V)) := by
    refine SimpleGraph.fromEdgeSet_mono ?_
    intro s hs
    simp only [Finset.coe_insert, Set.mem_insert_iff]
    right
    exact hs
  have herase_le_G : SimpleGraph.fromEdgeSet
        ((T.erase s(x, y) : Finset (Sym2 V)) : Set (Sym2 V)) ≤
      SimpleGraph.fromEdgeSet (T : Set (Sym2 V)) := by
    refine SimpleGraph.fromEdgeSet_mono ?_
    exact_mod_cast Finset.erase_subset _ _
  have hre_xa : (SimpleGraph.fromEdgeSet
      ((T.erase s(x, y) : Finset (Sym2 V)) : Set (Sym2 V))).Reachable x a :=
    ⟨(p1.transfer _ hedges_p1).reverse⟩
  have hre_yb : (SimpleGraph.fromEdgeSet
      ((T.erase s(x, y) : Finset (Sym2 V)) : Set (Sym2 V))).Reachable y b :=
    ⟨p2.transfer _ hedges_p2⟩
  have hHconn : (SimpleGraph.fromEdgeSet
      ((insert s(a, b) (T.erase s(x, y)) : Finset (Sym2 V)) : Set (Sym2 V))).Connected := by
    have hne : Nonempty V := ⟨a⟩
    rw [SimpleGraph.connected_iff]
    refine ⟨?_, hne⟩
    have hGH : ∀ u v, (SimpleGraph.fromEdgeSet (T : Set (Sym2 V))).Adj u v →
        (SimpleGraph.fromEdgeSet
          ((insert s(a, b) (T.erase s(x, y)) : Finset (Sym2 V)) : Set (Sym2 V))).Reachable u v := by
      intro u v huv
      have hne2 : u ≠ v := huv.ne
      rw [SimpleGraph.fromEdgeSet_adj] at huv
      have hm : s(u, v) ∈ T := by exact_mod_cast huv.1
      by_cases hefu : s(u, v) = s(x, y)
      · have hxa := hre_xa.mono herase_le_H
        have hyb := hre_yb.mono herase_le_H
        have hxy_reach := (hxa.trans hHab.reachable).trans hyb.symm
        rw [Sym2.eq_iff] at hefu
        rcases hefu with ⟨rfl, rfl⟩ | ⟨rfl, rfl⟩
        · exact hxy_reach
        · exact hxy_reach.symm
      · exact (hadjH (Finset.mem_insert_of_mem (Finset.mem_erase.mpr ⟨hefu, hm⟩))
          hne2).reachable
    intro u v
    exact reach_of_adj_reach hGH (hconn.preconnected u v)
  have hHacyc : (SimpleGraph.fromEdgeSet
      ((insert s(a, b) (T.erase s(x, y)) : Finset (Sym2 V)) : Set (Sym2 V))).IsAcyclic := by
    intro v0 c hc
    by_cases hec : s(a, b) ∈ c.edges
    · have hdel := (SimpleGraph.adj_and_reachable_delete_edges_iff_exists_cycle).mpr
        ⟨v0, c, hc, hec⟩
      have hle : (SimpleGraph.fromEdgeSet
            ((insert s(a, b) (T.erase s(x, y)) : Finset (Sym2 V)) : Set (Sym2 V)) \
            SimpleGraph.fromEdgeSet {s(a, b)}) ≤
          SimpleGraph.fromEdgeSet ((T.erase s(x, y) : Finset (Sym2 V)) : Set (Sym2 V)) := by
        intro u v huv
        rw [SimpleGraph.sdiff_adj] at huv
        obtain ⟨huvH, hnuv⟩ := huv
        rw [SimpleGraph.fromEdgeSet_adj] at huvH
        obtain ⟨hmT2, hneuv⟩ := huvH
        have hmT2b : s(u, v) ∈ insert s(a, b) (T.erase s(x, y)) := by exact_mod_cast hmT2
        rw [Finset.mem_insert] at hmT2b
        rcases hmT2b with heq | hmem
        · exfalso
          apply hnuv
          rw [SimpleGraph.fromEdgeSet_adj]
          exact ⟨by rw [heq]; exact Set.mem_singleton _, hneuv⟩
        · rw [SimpleGraph.fromEdgeSet_adj]
          exact ⟨by exact_mod_cast hmem, hneuv⟩
      have hab_er := hdel.2.mono hle
      have hxy_er := hre_xa.trans (hab_er.trans hre_yb.symm)
      obtain ⟨W⟩ := hxy_er
      have hWe : ∀ e ∈ W.edges, e ∈ (SimpleGraph.fromEdgeSet (T : Set (Sym2 V))).edgeSet := by
        intro e hew
        exact SimpleGraph.edgeSet_mono herase_le_G (W.edges_subset_edgeSet hew)
      have hWgf : s(x, y) ∉ (W.transfer _ hWe).edges := by
        rw [SimpleGraph.Walk.edges_transfer]
        intro hmem2
        have h2 := W.edges_subset_edgeSet hmem2
        rw [SimpleGraph.edgeSet_fromEdgeSet] at h2
        rcases h2 with ⟨h1, _⟩
        have h3 : s(x, y) ∈ T.erase s(x, y) := by exact_mod_cast h1
        exact (Finset.not_mem_erase _ _) h3
      have hneq : s(x, y) ∉ ((W.transfer _ hWe).toPath :
          (SimpleGraph.fromEdgeSet (T : Set (Sym2 V))).Walk x y).edges :=
        fun hmem2 => hWgf ((W.transfer _ hWe).edges_toPath_subset hmem2)
      have hpatheq := hacyc.path_unique (W.transfer _ hWe).toPath
        (SimpleGraph.Path.singleton hadj)
      rw [hpatheq] at hneq
      apply hneq
      show s(x, y) ∈ (SimpleGraph.Walk.cons hadj SimpleGraph.Walk.nil).edges
      simp
    · have hce : ∀ e ∈ c.edges, e ∈ (SimpleGraph.fromEdgeSet (T : Set (Sym2 V))).edgeSet := by
        intro e hece
        have h2 := c.edges_subset_edgeSet hece
        rw [SimpleGraph.edgeSet_fromEdgeSet] at h2
        rcases h2 with ⟨h1, h2⟩
        have h1b : e ∈ insert s(a, b) (T.erase s(x, y)) := by exact_mod_cast h1
        rw [Finset.mem_insert] at h1b
        rcases h1b with heq | hmem
        · exact absurd (heq ▸ hece) hec
        · rw [SimpleGraph.edgeSet_fromEdgeSet]
          exact ⟨by exact_mod_cast Finset.mem_of_mem_erase hmem, h2⟩
      exact hacyc (c.transfer _ hce) (hc.transfer hce)
  refine ⟨s(x, y), hfT, ⟨x, y, rfl, hx, hy⟩, ?_, hHconn, hHacyc⟩
  intro s hs
  rcases Finset.mem_insert.mp hs with heq | hmem
  · subst heq
    rw [Sym2.mk_isDiag_iff]
    exact hab
  · exact hdiag s (Finset.mem_of_mem_erase hmem)

theorem PrimTrace.acyclic {wt : Sym2 V → ℝ} {S : Finset V} {F : Finset (Sym2 V)}
    (h : PrimTrace wt S F) :
    (SimpleGraph.fromEdgeSet (F : Set (Sym2 V))).IsAcyclic := by
  induction h with
  | init r =>
    rw [Finset.coe_empty, SimpleGraph.fromEdgeSet_empty]
    exact SimpleGraph.isAcyclic_bot
  | step S' F' a b ha hb hmin hprev ih =>
    intro v0 c hc
    have hab : a ≠ b := fun hh => hb (hh ▸ ha)
    by_cases hec : s(a, b) ∈ c.edges
    · have hdel := (SimpleGraph.adj_and_reachable_delete_edges_iff_exists_cycle).mpr
        ⟨v0, c, hc, hec⟩
      have hle : (SimpleGraph.fromEdgeSet
            ((insert s(a, b) F' : Finset (Sym2 V)) : Set (Sym2 V)) \
            SimpleGraph.fromEdgeSet {s(a, b)}) ≤
          SimpleGraph.fromEdgeSet (F' : Set (Sym2 V)) := by
        intro u v huv
        rw [SimpleGraph.sdiff_adj] at huv
        obtain ⟨huvH, hnuv⟩ := huv
        rw [SimpleGraph.fromEdgeSet_adj] at huvH
        obtain ⟨hm2, hneuv⟩ := huvH
        have hm2b : s(u, v) ∈ insert s(a, b) F' := by exact_mod_cast hm2
        rw [Finset.mem_insert] at hm2b
        rcases hm2b with heq | hmem
        · exfalso
          apply hnuv
          rw [SimpleGraph.fromEdgeSet_adj]
          exact ⟨by rw [heq]; exact Set.mem_singleton _, hneuv⟩
        · rw [SimpleGraph.fromEdgeSet_adj]
          exact ⟨by exact_mod_cast hmem, hneuv⟩
      have hreach : (SimpleGraph.fromEdgeSet (F' : Set (Sym2 V))).Reachable a b :=
        hdel.2.mono hle
      obtain ⟨W⟩ := hreach
      have hba : b ≠ a := Ne.symm hab
      have hnil : ¬ W.reverse.Nil := SimpleGraph.Walk.not_nil_of_ne hba
      rcases SimpleGraph.Walk.not_nil_iff.mp hnil with ⟨z, hadjbz, q, _⟩
      rw [SimpleGraph.fromEdgeSet_adj] at hadjbz
      have hmz : s(b, z) ∈ F' := by exact_mod_cast hadjbz.1
      exact hb (hprev.endpoints_mem _ hmz b (Sym2.mem_mk_left b z))
    · have hce : ∀ e ∈ c.edges, e ∈ (SimpleGraph.fromEdgeSet (F' : Set (Sym2 V))).edgeSet := by
        intro e hece
        have h2 := c.edges_subset_edgeSet hece
        rw [SimpleGraph.edgeSet_fromEdgeSet] at h2
        rcases h2 with ⟨h1, h2⟩
        have h1b : e ∈ insert s(a, b) F' := by exact_mod_cast h1
        rw [Finset.mem_insert] at h1b
        rcases h1b with heq | hmem
        · exact absurd (heq ▸ hece) hec
        · rw [SimpleGraph.edgeSet_fromEdgeSet]
          exact ⟨by exact_mod_cast hmem, h2⟩
      exact ih (c.transfer _ hce) (hc.transfer hce)

theorem PrimTrace.compare {wt : Sym2 V → ℝ} {S : Finset V} {F : Finset (Sym2 V)}
    (h : PrimTrace wt S F) :
    ∀ T : Finset (Sym2 V), IsSpanTree T →
      ∃ T2, IsSpanTree T2 ∧ F ⊆ T2 ∧ ∑ s ∈ T2, wt s ≤ ∑ s ∈ T, wt s := by
  induction h with
  | init r =>
    intro T hT
    exact ⟨T, hT, Finset.empty_subset T, le_refl _⟩
  | step S' F' a b ha hb hmin hprev ih =>
    intro T hT
    rcases ih T hT with ⟨T2, hT2, hsub, hle⟩
    by_cases hmem : s(a, b) ∈ T2
    · exact ⟨T2, hT2, Finset.insert_subset hmem hsub, hle⟩
    · have hab : a ≠ b := fun hh => hb (hh ▸ ha)
      rcases spanTree_exchange hT2 ha hb hab hmem with ⟨f, hfT2, ⟨x, y, rfl, hxS, hyS⟩, hT3⟩
      have hfF : s(x, y) ∉ F' := fun hf =>
        hyS (hprev.endpoints_mem _ hf y (Sym2.mem_mk_right x y))
      refine ⟨insert s(a, b) (T2.erase s(x, y)), hT3, ?_, ?_⟩
      · refine Finset.insert_subset (Finset.mem_insert_self _ _) ?_
        intro s hs
        refine Finset.mem_insert_of_mem (Finset.mem_erase.mpr ⟨?_, hsub hs⟩)
        intro heq
        exact hfF (heq ▸ hs)
      · have hwle : wt s(a, b) ≤ wt s(x, y) := hmin x hxS y hyS
        have hnot : s(a, b) ∉ T2.erase s(x, y) := fun hmem2 =>
          hmem (Finset.mem_of_mem_erase hmem2)
        rw [Finset.sum_insert hnot]
        have hsplit : ∑ s ∈ T2.erase s(x, y), wt s + wt s(x, y) = ∑ s ∈ T2, wt s :=
          Finset.sum_erase_add _ _ hfT2
        linarith

/-- The abstract Prim theorem: a complete trace builds a spanning tree of
minimum total weight. -/
theorem prim_spanning_minimum {wt : Sym2 V → ℝ} {S : Finset V} {F : Finset (Sym2 V)}
    (h : PrimTrace wt S F) (huniv : ∀ v : V, v ∈ S) :
    IsSpanTree F ∧ ∀ T, IsSpanTree T → ∑ s ∈ F, wt s ≤ ∑ s ∈ T, wt s := by
  have hconnF : (SimpleGraph.fromEdgeSet (F : Set (Sym2 V))).Connected := by
    have hne : Nonempty V := by
      rcases h.vertex_nonempty with ⟨r, _⟩
      exact ⟨r⟩
    rw [SimpleGraph.connected_iff]
    exact ⟨fun u v => h.reach u (huniv u) v (huniv v), hne⟩
  have hspan : IsSpanTree F := ⟨h.nodiag, hconnF, h.acyclic⟩
  refine ⟨hspan, ?_⟩
  intro T hT
  rcases h.compare T hT with ⟨T2, hT2, hsub, hle⟩
  -- F and T2 are spanning trees with F ⊆ T2, and both have card V - 1 edges
  have hcard : ∀ (U : Finset (Sym2 V)), IsSpanTree U → U.card + 1 = Fintype.card V := by
    intro U hU
    obtain ⟨hUdiag, hUconn, hUacyc⟩ := hU
    classical
    have htree : (SimpleGraph.fromEdgeSet (U : Set (Sym2 V))).IsTree := ⟨hUconn, hUacyc⟩
    letI : Fintype (SimpleGraph.fromEdgeSet (U : Set (Sym2 V))).edgeSet :=
      Set.Finite.fintype (Set.toFinite _)
    have hcardU := htree.card_edgeFinset
    have hedges : (SimpleGraph.fromEdgeSet (U : Set (Sym2 V))).edgeSet = (U : Set (Sym2 V)) := by
      rw [SimpleGraph.edgeSet_fromEdgeSet]
      ext e
      simp only [Set.mem_diff, Set.mem_setOf_eq, Finset.mem_coe]
      constructor
      · exact fun he => he.1
      · intro he
        exact ⟨he, hUdiag e he⟩
    have hfin : (SimpleGraph.fromEdgeSet (U : Set (Sym2 V))).edgeFinset.card = U.card := by
      rw [SimpleGraph.edgeFinset]
      have : ((SimpleGraph.fromEdgeSet (U : Set (Sym2 V))).edgeSet).toFinset = U :=
        (Set.toFinset_congr hedges).trans (Finset.toFinset_coe U)
      rw [this]
    rw [hfin] at hcardU
    exact hcardU
  have hFcard := hcard F hspan
  have hT2card := hcard T2 hT2
  have hFeq : F = T2 := Finset.eq_of_subset_of_card_le hsub (by omega)
  rw [hFeq]
  exact hle

end PrimAbstract

/-- The graph on the input points generated by a returned edge list: two
input points are adjacent when some returned edge joins them (in either
orientation). -/
def mstGraph (points : List Vertex) (edges : List Edge) :
    SimpleGraph {v : Vertex // v ∈ points} :=
  SimpleGraph.fromRel (fun a b => ∃ e ∈ edges, e.u = a.val ∧ e.v = b.val)

/-- Total Euclidean length of a returned edge list, recomputed from the
endpoints of each edge. -/
noncomputable def edgesWeight (edges : List Edge) : ℝ :=
  (edges.map (fun e => Vertex.distance e.u e.v)).sum

/-- Euclidean length of an undirected edge between input points. -/
noncomputable def symWeight (points : List Vertex) :
    Sym2 {v : Vertex // v ∈ points} → ℝ :=
  Sym2.lift ⟨fun a b => Vertex.distance a.val b.val, by
    intro a b
    dsimp only
    unfold Vertex.distance
    rw [dist2_comm]⟩

/-- The input point at a table position, as an element of the vertex set
of the point graph. -/
def posEmb (points : List Vertex) (i : Fin points.length) : {v : Vertex // v ∈ points} :=
  ⟨points.get i, List.get_mem points i.val i.isLt⟩

theorem posEmb_injective {points : List Vertex} (hnd : points.Nodup) :
    Function.Injective (posEmb points) := by
  intro i j hij
  have : points.get i = points.get j := congrArg Subtype.val hij
  exact List.nodup_iff_injective_get.mp hnd this

theorem posEmb_surjective (points : List Vertex) :
    ∀ v : {v : Vertex // v ∈ points}, ∃ i : Fin points.length, posEmb points i = v := by
  intro v
  rcases List.mem_iff_get.mp v.property with ⟨i, hget⟩
  exact ⟨i, Subtype.ext hget⟩

/-- The recorded nearest-vertex marker at a table position, as a total
function (none when out of range). -/
def nearAt (table : List Item) (i : Nat) : Option Nat :=
  (table.get? i).bind Item.near

/-- The parent position recorded at a table position, as a total function
on Fin (with an arbitrary fallback on sentinel or out-of-range values,
never hit under the table invariant). -/
def parFin (points : List Vertex) (table : List Item) (i : Fin points.length) :
    Fin points.length :=
  match nearAt table i.val with
  | none => i
  | some j => if hj : j < points.length then ⟨j, hj⟩ else i

/-- The set of undirected parent edges recorded in the table: one edge per
non-root position already admitted to the tree. -/
def parentEdges (points : List Vertex) (table : List Item) :
    Finset (Sym2 {v : Vertex // v ∈ points}) :=
  (Finset.univ.filter
    (fun i : Fin points.length => i.val ≠ 0 ∧ (nearAt table i.val).isSome)).image
    (fun i => s(posEmb points i, posEmb points (parFin points table i)))

theorem nearAt_eq {table : List Item} {i : Nat} (h : i < table.length) :
    nearAt table i = (table[i]).near := by
  unfold nearAt
  rw [List.get?_eq_getElem?, List.getElem?_eq_getElem h]
  rfl

theorem parFin_eq_of_nearAt_some {points : List Vertex} {table : List Item}
    {i : Fin points.length} {j : Nat} (h : nearAt table i.val = some j)
    (hj : j < points.length) : parFin points table i = ⟨j, hj⟩ := by
  unfold parFin
  rw [h]
  show (if hj2 : j < points.length then (⟨j, hj2⟩ : Fin points.length) else i) = ⟨j, hj⟩
  rw [dif_pos hj]

theorem parFin_congr {points : List Vertex} {table table2 : List Item}
    {i : Fin points.length} (h : nearAt table2 i.val = nearAt table i.val) :
    parFin points table2 i = parFin points table i := by
  unfold parFin
  rw [h]

/-- Iterating the loop body from the back: one more step is a connect
after the previous steps. -/
theorem steps_succ_back : ∀ (k : Nat) (t : List Item),
    steps (k + 1) t = (steps k t).bind connect := by
  intro k
  induction k with
  | zero =>
    intro t
    show (match connect t with
      | none => none
      | some t2 => steps 0 t2) = connect t
    cases hc : connect t with
    | none => rfl
    | some t2 => rfl
  | succ k ih =>
    intro t
    show (match connect t with
      | none => none
      | some t2 => steps (k + 1) t2) =
      (match connect t with
        | none => none
        | some t2 => steps k t2).bind connect
    cases hc : connect t with
    | none => rfl
    | some t2 => exact ih t2

theorem symWeight_mk (points : List Vertex) (u v : {v : Vertex // v ∈ points}) :
    symWeight points s(u, v) = Vertex.distance u.val v.val := by
  unfold symWeight
  rw [Sym2.lift_mk]

theorem distance_mono {p q r t : Vertex} (h : Vertex.dist2 p q ≤ Vertex.dist2 r t) :
    Vertex.distance p q ≤ Vertex.distance r t := by
  unfold Vertex.distance
  apply Real.sqrt_le_sqrt
  exact_mod_cast h

/-- The algorithm steps realize an abstract Prim trace: after k loop-body
steps from the seeded table, the admitted vertices and the recorded parent
edges form a trace for the Euclidean weight. -/
theorem steps_trace (points : List Vertex) (hne : points ≠ []) (hnd : points.Nodup)
    (t0 : List Item)
    (hinv0 : TableInv points t0)
    (hroot0 : ∀ h : 0 < t0.length, (t0[0]).near = some 0)
    (hnone0 : ∀ i (h : i < t0.length), i ≠ 0 → (t0[i]).near = none) :
    ∀ k, k ≤ availCount t0 →
    ∃ (table : List Item) (S : Finset {v : Vertex // v ∈ points}),
      steps k t0 = some table ∧ TableInv points table ∧
      availCount table + k = availCount t0 ∧
      PrimTrace (symWeight points) S (parentEdges points table) ∧
      (∀ i : Fin points.length, (nearAt table i.val ≠ none ↔ posEmb points i ∈ S)) ∧
      (∀ i1 i2 : Fin points.length, i1.val ≠ 0 → i2.val ≠ 0 →
        (nearAt table i1.val).isSome = true → (nearAt table i2.val).isSome = true →
        s(posEmb points i1, posEmb points (parFin points table i1)) =
          s(posEmb points i2, posEmb points (parFin points table i2)) → i1 = i2) := by
  have h0 : 0 < points.length := List.length_pos.mpr hne
  have hlen0 : t0.length = points.length := hinv0.len
  intro k
  induction k with
  | zero =>
    intro _
    refine ⟨t0, {posEmb points ⟨0, h0⟩}, rfl, hinv0, by omega, ?_, ?_, ?_⟩
    · have hpe : parentEdges points t0 = ∅ := by
        unfold parentEdges
        have hfe : (Finset.univ.filter
            (fun i : Fin points.length => i.val ≠ 0 ∧ (nearAt t0 i.val).isSome)) = ∅ := by
          rw [Finset.filter_eq_empty_iff]
          intro i _
          rintro ⟨hi0, hsome⟩
          have hib : i.val < t0.length := by omega
          rw [nearAt_eq hib, hnone0 i.val hib hi0] at hsome
          simp at hsome
        rw [hfe, Finset.image_empty]
      rw [hpe]
      exact PrimTrace.init (posEmb points ⟨0, h0⟩)
    · intro i
      have hib : i.val < t0.length := by omega
      by_cases hi0 : i.val = 0
      · have hieq : i = ⟨0, h0⟩ := Fin.ext hi0
        subst hieq
        rw [nearAt_eq hib]
        constructor
        · intro _
          exact Finset.mem_singleton_self _
        · intro _
          rw [hroot0 (by omega)]
          exact Option.noConfusion
      · rw [nearAt_eq hib, hnone0 i.val hib hi0]
        constructor
        · intro hcon
          exact absurd rfl hcon
        · intro hmem
          exfalso
          rw [Finset.mem_singleton] at hmem
          have := posEmb_injective hnd hmem
          exact hi0 (congrArg Fin.val this)
    · intro i1 i2 hi10 hi20 hs1 hs2 _
      exfalso
      have hib : i1.val < t0.length := by omega
      rw [nearAt_eq hib, hnone0 i1.val hib hi10] at hs1
      simp at hs1
  | succ k ih =>
    intro hk1
    rcases ih (by omega) with ⟨table, S, hsteps, hinvT, hcountT, htrace, hiff, hinj⟩
    have hlenT : table.length = points.length := hinvT.len
    have hav : vertices_available table = true :=
      (availCount_pos_iff table).mp (by omega)
    rcases connect_spec hinvT hav with
      ⟨idx, j, h, hj, t2, hn1, hn2, hidx0, hconn, ht2eq, hinv2, hcount2, hmin⟩
    have hsteps2 : steps (k + 1) t0 = some t2 := by
      rw [steps_succ_back, hsteps]
      exact hconn
    have hidxP : idx < points.length := by omega
    have hjP : j < points.length := by omega
    have hnear2 : ∀ p : Nat, nearAt t2 p = if p = idx then some j else nearAt table p := by
      intro p
      rw [ht2eq]
      by_cases hp : p = idx
      · subst hp
        rw [if_pos rfl]
        unfold nearAt
        rw [List.get?_set_eq_of_lt _ h]
        rfl
      · rw [if_neg hp]
        unfold nearAt
        rw [List.get?_set_ne _ _ (Ne.symm hp)]
    set iF : Fin points.length := ⟨idx, hidxP⟩ with hiF
    set jF : Fin points.length := ⟨j, hjP⟩ with hjF
    have hvert : ∀ (p : Fin points.length),
        (table.get ⟨p.val, by omega⟩).vertex = (posEmb points p).val := by
      intro p
      have hpT : p.val < table.length := by omega
      have := hinvT.vert p.val hpT
      rw [List.get_eq_getElem]
      rw [this]
      rfl
    have hparent_adm : ∀ (p : Fin points.length) (jp : Nat), p.val ≠ 0 →
        nearAt table p.val = some jp → jp < table.length ∧ nearAt table jp ≠ none := by
      intro p jp hp0 hnear
      have hpT : p.val < table.length := by omega
      rw [nearAt_eq hpT] at hnear
      rcases hinvT.near_spec p.val hpT jp hnear hp0 with ⟨hjb, hjne, hjadm, _⟩
      refine ⟨hjb, ?_⟩
      rw [nearAt_eq hjb]
      exact hjadm
    -- the trace step
    have hherr : posEmb points jF ∈ S := by
      refine (hiff jF).mp ?_
      rw [nearAt_eq (show jF.val < table.length by omega)]
      exact hn2
    have hbnotin : posEmb points iF ∉ S := by
      intro hmem
      have := (hiff iF).mpr hmem
      rw [nearAt_eq (show iF.val < table.length by omega)] at this
      exact this hn1
    have hminW : ∀ x ∈ S, ∀ y, y ∉ S →
        symWeight points s(posEmb points jF, posEmb points iF) ≤ symWeight points s(x, y) := by
      intro x hx y hy
      rcases posEmb_surjective points x with ⟨a2, rfl⟩
      rcases posEmb_surjective points y with ⟨b2, rfl⟩
      have ha2 : nearAt table a2.val ≠ none := (hiff a2).mpr hx
      have hb2 : nearAt table b2.val = none := by
        by_contra hcon
        exact hy ((hiff b2).mp hcon)
      have ha2T : a2.val < table.length := by omega
      have hb2T : b2.val < table.length := by omega
      rw [nearAt_eq ha2T] at ha2
      rw [nearAt_eq hb2T] at hb2
      have hd := hmin a2.val b2.val ha2T hb2T ha2T hb2T ha2 hb2
      rw [symWeight_mk, symWeight_mk]
      have hu1 := hvert jF
      have hu2 := hvert iF
      have hu3 := hvert a2
      have hu4 := hvert b2
      rw [List.get_eq_getElem] at hu1 hu2 hu3 hu4
      rw [← hu1, ← hu2, ← hu3, ← hu4]
      exact distance_mono hd
    have hpe2 : parentEdges points t2 =
        insert s(posEmb points jF, posEmb points iF) (parentEdges points table) := by
      ext s
      unfold parentEdges
      rw [Finset.mem_insert]
      constructor
      · intro hs
        rw [Finset.mem_image] at hs
        rcases hs with ⟨p, hpmem, hps⟩
        rw [Finset.mem_filter] at hpmem
        rcases hpmem with ⟨_, hp0, hpsome⟩
        by_cases hpi : p.val = idx
        · left
          have hnp : nearAt t2 p.val = some j := by
            rw [hnear2, if_pos hpi]
          have hpar : parFin points t2 p = jF :=
            parFin_eq_of_nearAt_some hnp hjP
          have hpeq : p = iF := Fin.ext hpi
          rw [← hps, hpar, hpeq]
          rw [Sym2.eq_swap]
        · right
          have hnp : nearAt t2 p.val = nearAt table p.val := by
            rw [hnear2, if_neg hpi]
          have hpar : parFin points t2 p = parFin points table p := parFin_congr hnp
          rw [Finset.mem_image]
          refine ⟨p, ?_, ?_⟩
          · rw [Finset.mem_filter]
            refine ⟨Finset.mem_univ p, hp0, ?_⟩
            rw [← hnp]
            exact hpsome
          · rw [← hps, hpar]
      · intro hs
        rcases hs with heq | hmem
        · rw [Finset.mem_image]
          refine ⟨iF, ?_, ?_⟩
          · rw [Finset.mem_filter]
            refine ⟨Finset.mem_univ iF, hidx0, ?_⟩
            rw [hnear2, if_pos rfl]
            rfl
          · have hnp : nearAt t2 iF.val = some j := by
              rw [hnear2, if_pos rfl]
            rw [parFin_eq_of_nearAt_some hnp hjP]
            rw [heq, Sym2.eq_swap]
        · rw [Finset.mem_image] at hmem ⊢
          rcases hmem with ⟨p, hpmem, hps⟩
          rw [Finset.mem_filter] at hpmem
          rcases hpmem with ⟨_, hp0, hpsome⟩
          have hpi : p.val ≠ idx := by
            intro hcon
            rw [hcon, nearAt_eq h, hn1] at hpsome
            simp at hpsome
          have hnp : nearAt t2 p.val = nearAt table p.val := by
            rw [hnear2, if_neg hpi]
          refine ⟨p, ?_, ?_⟩
          · rw [Finset.mem_filter]
            refine ⟨Finset.mem_univ p, hp0, ?_⟩
            rw [hnp]
            exact hpsome
          · rw [parFin_congr hnp]
            exact hps
    have htrace2 : PrimTrace (symWeight points) (insert (posEmb points iF) S)
        (parentEdges points t2) := by
      rw [hpe2]
      exact PrimTrace.step S (parentEdges points table)
        (posEmb points jF) (posEmb points iF) hherr hbnotin hminW htrace
    refine ⟨t2, insert (posEmb points iF) S, hsteps2, hinv2, by omega, htrace2, ?_, ?_⟩
    · intro i
      by_cases hpi : i.val = idx
      · rw [hnear2, if_pos hpi]
        have hieq : i = iF := Fin.ext hpi
        rw [hieq]
        constructor
        · intro _
          exact Finset.mem_insert_self _ _
        · intro _
          exact fun hcon => Option.noConfusion hcon
      · rw [hnear2, if_neg hpi]
        rw [hiff i]
        constructor
        · intro hmem
          exact Finset.mem_insert_of_mem hmem
        · intro hmem
          rcases Finset.mem_insert.mp hmem with heq | hmem2
          · exfalso
            have := posEmb_injective hnd heq
            exact hpi (congrArg Fin.val this)
          · exact hmem2
    · intro i1 i2 hi10 hi20 hs1 hs2 heq
      have hedge : ∀ (p : Fin points.length), p.val ≠ 0 →
          (nearAt t2 p.val).isSome = true → p.val ≠ idx →
          parFin points t2 p = parFin points table p ∧
          (nearAt table p.val).isSome = true := by
        intro p hp0 hpsome hpi
        have hnp : nearAt t2 p.val = nearAt table p.val := by
          rw [hnear2, if_neg hpi]
        exact ⟨parFin_congr hnp, by rw [← hnp]; exact hpsome⟩
      have hparid : parFin points t2 iF = jF := by
        refine parFin_eq_of_nearAt_some ?_ hjP
        rw [hnear2, if_pos rfl]
      have hkey : ∀ (p : Fin points.length), p.val ≠ 0 →
          (nearAt t2 p.val).isSome = true → p.val ≠ idx →
          s(posEmb points p, posEmb points (parFin points t2 p)) =
            s(posEmb points iF, posEmb points jF) → False := by
        intro p hp0 hpsome hpi hcon
        rcases hedge p hp0 hpsome hpi with ⟨hpar, hpsomeT⟩
        rw [hpar] at hcon
        rcases Option.isSome_iff_exists.mp hpsomeT with ⟨jp, hjp⟩
        rcases hparent_adm p jp hp0 hjp with ⟨hjpb, hjpadm⟩
        have hparp : parFin points table p = ⟨jp, by omega⟩ :=
          parFin_eq_of_nearAt_some hjp (by omega)
        rw [hparp] at hcon
        rw [Sym2.eq_iff] at hcon
        rcases hcon with ⟨hpe, hje⟩ | ⟨hpe, hje⟩
        · exact hpi (congrArg Fin.val (posEmb_injective hnd hpe))
        · have h1 := congrArg Fin.val (posEmb_injective hnd hje)
          have h2 := congrArg Fin.val (posEmb_injective hnd hpe)
          simp at h1 h2
          rw [h1] at hjpadm
          rw [nearAt_eq (show idx < table.length from h)] at hjpadm
          exact hjpadm hn1
      by_cases h1i : i1.val = idx
      · by_cases h2i : i2.val = idx
        · exact Fin.ext (h1i.trans h2i.symm)
        · exfalso
          have hieq : i1 = iF := Fin.ext h1i
          rw [hieq, hparid] at heq
          exact hkey i2 hi20 hs2 h2i heq.symm
      · by_cases h2i : i2.val = idx
        · exfalso
          have hieq : i2 = iF := Fin.ext h2i
          rw [hieq, hparid] at heq
          exact hkey i1 hi10 hs1 h1i heq
        · rcases hedge i1 hi10 hs1 h1i with ⟨hpar1, hsome1⟩
          rcases hedge i2 hi20 hs2 h2i with ⟨hpar2, hsome2⟩
          rw [hpar1, hpar2] at heq
          exact hinj i1 i2 hi10 hi20 hsome1 hsome2 heq

/-- Summation form of the edge-building loop on a fully admitted table:
the total recomputed Euclidean length of the emitted edges equals the sum,
over the non-root positions at or past the loop counter, of the distance
from the position to its recorded parent. -/
theorem buildEdgesList_weight {points : List Vertex} {table : List Item}
    (hT : TableInv points table) (hav0 : availCount table = 0) :
    ∀ (n i : Nat), i + n = table.length →
    ∀ es, buildEdgesList table (List.range' i n) = some es →
    (es.map (fun e => Vertex.distance e.u e.v)).sum =
      ∑ p ∈ Finset.univ.filter
          (fun q : Fin points.length => i ≤ q.val ∧ q.val ≠ 0),
        Vertex.distance (points.get p) (points.get (parFin points table p)) := by
  intro n
  induction n with
  | zero =>
    intro i hlen es hb
    rw [List.range'_zero] at hb
    have hes : es = [] := by
      have : (some [] : Option (List Edge)) = some es := hb
      exact (Option.some.inj this).symm
    subst hes
    have hfe : Finset.univ.filter
        (fun q : Fin points.length => i ≤ q.val ∧ q.val ≠ 0) = ∅ := by
      rw [Finset.filter_eq_empty_iff]
      intro q _
      have hq : q.val < points.length := q.isLt
      have hl : table.length = points.length := hT.len
      rintro ⟨hiq, _⟩
      omega
    rw [hfe]
    simp
  | succ n ih =>
    intro i hlen es hb
    have h : i < table.length := by omega
    have hlenP : table.length = points.length := hT.len
    have hne := near_ne_none_of_availCount_zero hav0 i h
    rcases hj0 : (table[i]).near with _ | j0
    · exact absurd hj0 hne
    have hget : table.get? i = some (table[i]) := by
      rw [List.get?_eq_getElem?, List.getElem?_eq_getElem h]
    have hrange : List.range' i (n + 1) = i :: List.range' (i + 1) n :=
      List.range'_succ i n 1
    rw [hrange] at hb
    by_cases hi0 : i = 0
    · subst hi0
      have hroot := hT.root_near h
      have hskip : edgeAt table 0 (table[0]) = some none := by
        unfold edgeAt
        rw [if_pos hroot]
      simp only [buildEdgesList, hget, hskip] at hb
      have hs := ih 1 (by omega) es hb
      have hfeq : Finset.univ.filter
          (fun q : Fin points.length => 1 ≤ q.val ∧ q.val ≠ 0) =
          Finset.univ.filter
          (fun q : Fin points.length => 0 ≤ q.val ∧ q.val ≠ 0) := by
        apply Finset.filter_congr
        intro q _
        omega
      rw [hfeq] at hs
      exact hs
    · rcases hT.near_spec i h j0 hj0 hi0 with ⟨hjb0, hji0, hjn0, hjc0⟩
      have hemit : edgeAt table i (table[i]) =
          some (some { u := (table[i]).vertex, v := (table[j0]).vertex,
                       length := (table[i]).cost }) := by
        unfold edgeAt
        rw [if_neg (show ¬ (table[i]).near = some i by
          rw [hj0]
          intro hcon
          injection hcon with hh
          exact hji0 hh)]
        simp only [hj0]
        simp only [List.get?_eq_getElem?, List.getElem?_eq_getElem hjb0]
      simp only [buildEdgesList, hget, hemit] at hb
      cases hb2 : buildEdgesList table (List.range' (i + 1) n) with
      | none =>
        rw [hb2] at hb
        simp at hb
      | some es2 =>
        rw [hb2] at hb
        have hes : es = { u := (table[i]).vertex, v := (table[j0]).vertex, length := (table[i]).cost } :: es2 := (Option.some.inj hb).symm
        subst hes
        have hsum2 := ih (i + 1) (by omega) es2 hb2
        have hiP : i < points.length := by omega
        have hjP0 : j0 < points.length := by omega
        have hparent : parFin points table (⟨i, hiP⟩ : Fin points.length) =
            ⟨j0, hjP0⟩ := by
          refine parFin_eq_of_nearAt_some ?_ hjP0
          rw [nearAt_eq h]
          exact hj0
        have hsplit : Finset.univ.filter
            (fun q : Fin points.length => i ≤ q.val ∧ q.val ≠ 0) =
            insert (⟨i, hiP⟩ : Fin points.length)
              (Finset.univ.filter
                (fun q : Fin points.length => i + 1 ≤ q.val ∧ q.val ≠ 0)) := by
          ext q
          simp only [Finset.mem_filter, Finset.mem_insert, Finset.mem_univ, true_and]
          constructor
          · rintro ⟨hiq, hq0⟩
            by_cases hqi : q = (⟨i, hiP⟩ : Fin points.length)
            · left
              exact hqi
            · right
              refine ⟨?_, hq0⟩
              have hqv : q.val ≠ i := fun hc => hqi (Fin.ext hc)
              omega
          · rintro (rfl | ⟨hiq, hq0⟩)
            · exact ⟨le_refl i, hi0⟩
            · exact ⟨by omega, hq0⟩
        have hnotmem : (⟨i, hiP⟩ : Fin points.length) ∉
            Finset.univ.filter
              (fun q : Fin points.length => i + 1 ≤ q.val ∧ q.val ≠ 0) := by
          simp only [Finset.mem_filter, Finset.mem_univ, true_and]
          rintro ⟨hc, _⟩
          omega
        rw [hsplit, Finset.sum_insert hnotmem]
        simp only [List.map_cons, List.sum_cons]
        rw [hsum2, hparent]
        congr 1
        show Vertex.distance (table[i]).vertex (table[j0]).vertex =
          Vertex.distance (points.get ⟨i, hiP⟩) (points.get ⟨j0, hjP0⟩)
        rw [hT.vert i h, hT.vert j0 hjb0]

/-- The total weight of the recorded parent edges, as a sum over the
non-root positions. -/
theorem parentEdges_weight {points : List Vertex} {table : List Item}
    (hnd : points.Nodup) (hT : TableInv points table) (hav0 : availCount table = 0)
    (hinj : ∀ i1 i2 : Fin points.length, i1.val ≠ 0 → i2.val ≠ 0 →
        (nearAt table i1.val).isSome = true → (nearAt table i2.val).isSome = true →
        s(posEmb points i1, posEmb points (parFin points table i1)) =
          s(posEmb points i2, posEmb points (parFin points table i2)) → i1 = i2) :
    ∑ s ∈ parentEdges points table, symWeight points s =
      ∑ p ∈ Finset.univ.filter
          (fun q : Fin points.length => 0 ≤ q.val ∧ q.val ≠ 0),
        Vertex.distance (points.get p) (points.get (parFin points table p)) := by
  have hinjOn : ∀ x ∈ Finset.univ.filter
      (fun i : Fin points.length => i.val ≠ 0 ∧ (nearAt table i.val).isSome),
      ∀ y ∈ Finset.univ.filter
      (fun i : Fin points.length => i.val ≠ 0 ∧ (nearAt table i.val).isSome),
      s(posEmb points x, posEmb points (parFin points table x)) =
        s(posEmb points y, posEmb points (parFin points table y)) → x = y := by
    intro x hx y hy hxy
    rw [Finset.mem_filter] at hx hy
    exact hinj x y hx.2.1 hy.2.1 hx.2.2 hy.2.2 hxy
  unfold parentEdges
  rw [Finset.sum_image hinjOn]
  have hfeq : Finset.univ.filter
      (fun i : Fin points.length => i.val ≠ 0 ∧ (nearAt table i.val).isSome) =
      Finset.univ.filter
      (fun q : Fin points.length => 0 ≤ q.val ∧ q.val ≠ 0) := by
    apply Finset.filter_congr
    intro q _
    have hq : q.val < table.length := by
      rw [hT.len]
      exact q.isLt
    have hsome : (nearAt table q.val).isSome = true := by
      rw [nearAt_eq hq]
      rw [← Option.ne_none_iff_isSome]
      exact near_ne_none_of_availCount_zero hav0 q.val hq
    constructor
    · rintro ⟨h1, _⟩
      exact ⟨Nat.zero_le _, h1⟩
    · rintro ⟨_, h1⟩
      exact ⟨h1, hsome⟩
  refine Finset.sum_congr hfeq ?_
  intro q _
  rw [symWeight_mk]
  rfl

/-- The graph generated by the returned edge list coincides with the
graph generated by the recorded parent edges of the final table. -/
theorem mstGraph_eq {points : List Vertex} {table : List Item} {edges : List Edge}
    (hT : TableInv points table) (hav0 : availCount table = 0)
    (hbuild : buildEdges table = some edges) :
    mstGraph points edges = SimpleGraph.fromEdgeSet
      ((parentEdges points table : Set (Sym2 {v : Vertex // v ∈ points}))) := by
  rcases buildEdgesList_spec hT hav0 table.length 0 (by omega) with
    ⟨es, hb, hlen, hfwd, hbwd⟩
  have hes : es = edges := by
    unfold buildEdges at hbuild
    rw [List.range_eq_range' table.length, hb] at hbuild
    exact Option.some.inj hbuild
  subst hes
  ext a b
  show (SimpleGraph.fromRel
      (fun a b => ∃ e ∈ es, e.u = a.val ∧ e.v = b.val)).Adj a b ↔ _
  rw [SimpleGraph.fromRel_adj, SimpleGraph.fromEdgeSet_adj]
  simp only [Finset.mem_coe]
  constructor
  · rintro ⟨hab, hcase⟩
    refine ⟨?_, hab⟩
    unfold parentEdges
    rw [Finset.mem_image]
    rcases hcase with ⟨e, he, hu, hv⟩ | ⟨e, he, hu, hv⟩
    · rcases hfwd e he with ⟨pos, j, hp, hj, _, hp0, hnear, hedge⟩
      subst hedge
      have hpP : pos < points.length := by
        have := hT.len
        omega
      have hjP : j < points.length := by
        have := hT.len
        omega
      have hua : posEmb points ⟨pos, hpP⟩ = a := by
        apply Subtype.ext
        rw [← hu, hT.vert pos hp]
        rfl
      have hvb : posEmb points ⟨j, hjP⟩ = b := by
        apply Subtype.ext
        rw [← hv, hT.vert j hj]
        rfl
      have hpar : parFin points table ⟨pos, hpP⟩ = ⟨j, hjP⟩ := by
        refine parFin_eq_of_nearAt_some ?_ hjP
        rw [nearAt_eq hp]
        exact hnear
      refine ⟨⟨pos, hpP⟩, ?_, ?_⟩
      · rw [Finset.mem_filter]
        refine ⟨Finset.mem_univ _, hp0, ?_⟩
        rw [nearAt_eq hp, hnear]
        rfl
      · rw [hpar, hua, hvb]
    · rcases hfwd e he with ⟨pos, j, hp, hj, _, hp0, hnear, hedge⟩
      subst hedge
      have hpP : pos < points.length := by
        have := hT.len
        omega
      have hjP : j < points.length := by
        have := hT.len
        omega
      have hub : posEmb points ⟨pos, hpP⟩ = b := by
        apply Subtype.ext
        rw [← hu, hT.vert pos hp]
        rfl
      have hva : posEmb points ⟨j, hjP⟩ = a := by
        apply Subtype.ext
        rw [← hv, hT.vert j hj]
        rfl
      have hpar : parFin points table ⟨pos, hpP⟩ = ⟨j, hjP⟩ := by
        refine parFin_eq_of_nearAt_some ?_ hjP
        rw [nearAt_eq hp]
        exact hnear
      refine ⟨⟨pos, hpP⟩, ?_, ?_⟩
      · rw [Finset.mem_filter]
        refine ⟨Finset.mem_univ _, hp0, ?_⟩
        rw [nearAt_eq hp, hnear]
        rfl
      · rw [hpar, hub, hva, Sym2.eq_swap]
  · rintro ⟨hmem, hab⟩
    refine ⟨hab, ?_⟩
    unfold parentEdges at hmem
    rw [Finset.mem_image] at hmem
    rcases hmem with ⟨p, hpmem, hps⟩
    rw [Finset.mem_filter] at hpmem
    obtain ⟨_, hp0, hpsome⟩ := hpmem
    have hpT : p.val < table.length := by
      rw [hT.len]
      exact p.isLt
    rcases Option.isSome_iff_exists.mp hpsome with ⟨jp, hjp⟩
    have hnear : (table[p.val]).near = some jp := by
      rw [← nearAt_eq hpT]
      exact hjp
    rcases hT.near_spec p.val hpT jp hnear hp0 with ⟨hjb, hjne, _, _⟩
    have hjpP : jp < points.length := by
      have := hT.len
      omega
    have hedge_mem := hbwd p.val jp hpT hjb (Nat.zero_le _) hp0 hnear
    have hpar : parFin points table p = ⟨jp, hjpP⟩ :=
      parFin_eq_of_nearAt_some hjp hjpP
    rw [hpar] at hps
    rw [Sym2.eq_iff] at hps
    rcases hps with ⟨hpa, hjb2⟩ | ⟨hpb, hja⟩
    · left
      refine ⟨_, hedge_mem, ?_, ?_⟩
      · rw [hT.vert p.val hpT, ← hpa]
        rfl
      · rw [hT.vert jp hjb, ← hjb2]
        rfl
    · right
      refine ⟨_, hedge_mem, ?_, ?_⟩
      · rw [hT.vert p.val hpT, ← hpb]
        rfl
      · rw [hT.vert jp hjb, ← hja]
        rfl

/-- C1: for every non-empty sequence of pairwise-distinct points,
minimum_spanning_tree succeeds and its returned edge set forms a spanning
tree of the points (the generated graph on the input points is connected
and acyclic), and its total Euclidean edge length is at most the total
weight of every other spanning tree over the same points. -/
theorem mst_minimum_spanning_tree (points : List Vertex) (hne : points ≠ [])
    (hnd : points.Nodup) :
    ∃ edges, minimum_spanning_tree points = RunResult.ok edges ∧
      (mstGraph points edges).Connected ∧
      (mstGraph points edges).IsAcyclic ∧
      ∀ T : Finset (Sym2 {v : Vertex // v ∈ points}), IsSpanTree T →
        edgesWeight edges ≤ ∑ s ∈ T, symWeight points s := by
  rcases seed_initTable points hne with ⟨t0, hseed, hinv0, hlen0, hroot0, hnone0, hcnt0⟩
  have hlenpos : 0 < points.length := List.length_pos.mpr hne
  rcases steps_trace points hne hnd t0 hinv0 hroot0 hnone0 (availCount t0)
      (le_refl _) with ⟨tfin, S, hsteps, hinvf, hcf, htrace, hiff, hinj⟩
  have havf : availCount tfin = 0 := by omega
  have hloop : mstLoop points.length t0 = some tfin := by
    rw [mstLoop_eq_steps points.length hinv0 (by omega)]
    exact hsteps
  have hposf : 0 < tfin.length := by
    rw [hinvf.len]
    exact hlenpos
  rcases buildEdgesList_spec hinvf havf tfin.length 0 (by omega) with
    ⟨es, hbuildL, hlen, hfwd, hbwd⟩
  have hbuild2 : buildEdges tfin = some es := by
    unfold buildEdges
    rw [List.range_eq_range' tfin.length]
    exact hbuildL
  have hok : minimum_spanning_tree points = RunResult.ok es := by
    unfold minimum_spanning_tree
    dsimp only
    rw [checkIndices_initTable]
    rw [if_pos rfl]
    rw [hseed]
    show (match mstLoop points.length t0 with
      | none => RunResult.crash
      | some t1 =>
        match buildEdges t1 with
        | none => RunResult.crash
        | some edges => RunResult.ok edges) = RunResult.ok es
    rw [hloop]
    show (match buildEdges tfin with
      | none => RunResult.crash
      | some edges => RunResult.ok edges) = RunResult.ok es
    rw [hbuild2]
  have huniv : ∀ v : {v : Vertex // v ∈ points}, v ∈ S := by
    intro v
    rcases posEmb_surjective points v with ⟨i, rfl⟩
    refine (hiff i).mp ?_
    have hib : i.val < tfin.length := by
      rw [hinvf.len]
      exact i.isLt
    rw [nearAt_eq hib]
    exact near_ne_none_of_availCount_zero havf i.val hib
  rcases prim_spanning_minimum htrace huniv with ⟨hstF, hminF⟩
  have hgraph := mstGraph_eq hinvf havf hbuild2
  have hW1 := buildEdgesList_weight hinvf havf tfin.length 0 (by omega) es hbuildL
  have hW2 := parentEdges_weight hnd hinvf havf hinj
  have hsumeq : edgesWeight es = ∑ s ∈ parentEdges points tfin, symWeight points s := by
    unfold edgesWeight
    rw [hW1, hW2]
  obtain ⟨hdiagF, hconnF, hacyF⟩ := hstF
  refine ⟨es, hok, ?_, ?_, ?_⟩
  · rw [hgraph]
    exact hconnF
  · rw [hgraph]
    exact hacyF
  · intro T hT2
    rw [hsumeq]
    exact hminF T hT2

/-- Witness for C1 at the two distinct points (0, 0) and (3, 0). -/
theorem mst_minimum_spanning_tree_witness :
    ([Vertex.new 0 0, Vertex.new 3 0] ≠ ([] : List Vertex)) ∧
    ([Vertex.new 0 0, Vertex.new 3 0] : List Vertex).Nodup ∧
    ∃ edges, minimum_spanning_tree [Vertex.new 0 0, Vertex.new 3 0] =
        RunResult.ok edges ∧
      (mstGraph [Vertex.new 0 0, Vertex.new 3 0] edges).Connected ∧
      (mstGraph [Vertex.new 0 0, Vertex.new 3 0] edges).IsAcyclic ∧
      ∀ T : Finset (Sym2 {v : Vertex // v ∈ [Vertex.new 0 0, Vertex.new 3 0]}),
        IsSpanTree T →
        edgesWeight edges ≤ ∑ s ∈ T, symWeight [Vertex.new 0 0, Vertex.new 3 0] s :=
  ⟨by decide, by decide,
    mst_minimum_spanning_tree [Vertex.new 0 0, Vertex.new 3 0] (by decide) (by decide)⟩

end MstRs
